import Mathlib

/-!
Verification of the rust_reversi_core board engine and search algorithms.

The Rust code is embedded shallowly:
* `u64` values are `Nat` together with the explicit truncation `shl64`
  (left shift modulo `2 ^ 64`); right shift needs no truncation.
* board mutation becomes explicit state passing: operations on `Board`
  return a `(result, new board)` pair mirroring `&mut self`;
* fallible operations return `Except BoardError`;
* a Rust panic (index out of bounds, `unwrap` on `Err`, explicit panic)
  is modelled by an explicit `none` / dedicated constructor.

The runtime AVX2/scalar dispatch in `get_legal_moves` and `reverse` is
embedded by the scalar implementations (`get_legal_moves_non_avx`,
`reverse_non_avx`); the equivalence of the two legal-move implementations
is itself one of the verified claims.
-/

set_option maxRecDepth 4096

deriving instance DecidableEq for Except

namespace RustReversi

/-- 64-bit truncating left shift: `u64` shift-left semantics on `Nat`. -/
def shl64 (a s : Nat) : Nat := (a <<< s) % 2 ^ 64

/-- All-ones 64-bit mask, used to embed `u64` bitwise negation. -/
def msk64 : Nat := 2 ^ 64 - 1

/-- `BITS[i] = 1 << (63 - i)` from board.rs: the bit of board cell `i`. -/
def BITS (i : Nat) : Nat := 2 ^ (63 - i)

/-- `u64::count_ones` on a value below `2 ^ 64`. -/
def countOnes (x : Nat) : Nat := ((List.range 64).filter (fun i => x.testBit i)).length

/-- The error enum of board.rs. -/
inductive BoardError where
  | InvalidPosition
  | InvalidMove
  | InvalidPass
  | InvalidState
  | GameNotOverYet
  | InvalidCharactor
  | NoLegalMove
deriving DecidableEq, Repr

/-- Side to move. -/
inductive Turn where
  | Black
  | White
deriving DecidableEq, Repr

/-- `Turn::opposite`. -/
def Turn.opposite : Turn → Turn
  | Turn.Black => Turn.White
  | Turn.White => Turn.Black

/-- Cell colors as returned by the board-vector accessors. -/
inductive Color where
  | Empty
  | Black
  | White
deriving DecidableEq, Repr

/-- The `Board` struct: two bitboards, the side to move, and the
legal-move cache.  Derived `PartialEq` in Rust compares all four fields,
including the cache; equality of this structure models it exactly. -/
structure Board where
  player_board : Nat
  opponent_board : Nat
  turn : Turn
  legal_moves_cache : Option Nat
deriving DecidableEq, Repr

/-- `Board::default()`: the standard Reversi starting position. -/
def Board.default : Board :=
  { player_board := 0x0000000810000000
    opponent_board := 0x0000001008000000
    turn := Turn.Black
    legal_moves_cache := none }

/-- `Board::get_legal_partial`: one direction group of the branch-free
Kogge-Stone style fill (board.rs lines 343-356). -/
def getLegalPart (watch player_board : Nat) (shift : Nat) : Nat :=
  let flip_l1 := shl64 player_board shift &&& watch
  let flip_r1 := (player_board >>> shift) &&& watch
  let flip_l2 := flip_l1 ||| (shl64 flip_l1 shift &&& watch)
  let flip_r2 := flip_r1 ||| ((flip_r1 >>> shift) &&& watch)
  let watch_l := watch &&& shl64 watch shift
  let watch_r := watch &&& (watch >>> shift)
  let flip_l3 := flip_l2 ||| (shl64 flip_l2 (shift + shift) &&& watch_l)
  let flip_r3 := flip_r2 ||| ((flip_r2 >>> (shift + shift)) &&& watch_r)
  let flip_l4 := flip_l3 ||| (shl64 flip_l3 (shift + shift) &&& watch_l)
  let flip_r4 := flip_r3 ||| ((flip_r3 >>> (shift + shift)) &&& watch_r)
  shl64 flip_l4 shift ||| (flip_r4 >>> shift)

/-- `Board::get_legal_moves_non_avx` (board.rs lines 358-367): scalar
legal-move generation, as a pure function of the two bitboards. -/
def getLegalMovesNonAvx (player_board opponent_board : Nat) : Nat :=
  let mask := 0x7E7E7E7E7E7E7E7E &&& opponent_board
  (getLegalPart mask player_board 1 |||
   getLegalPart opponent_board player_board 8 |||
   getLegalPart mask player_board 9 |||
   getLegalPart mask player_board 7) &&&
    (msk64 ^^^ (player_board ||| opponent_board))

/-- One 64-bit lane of `Board::get_moves_avx` (board.rs lines 370-441).
The 256-bit vector ops act lane-wise, so the whole computation is four
independent copies of this function with the lane's shift amount and the
lane's edge-masked opponent board `moo`. -/
def avxLane (moo player_board : Nat) (shift : Nat) : Nat :=
  let flip_l1 := moo &&& shl64 player_board shift
  let flip_r1 := moo &&& (player_board >>> shift)
  let flip_l2 := flip_l1 ||| (moo &&& shl64 flip_l1 shift)
  let flip_r2 := flip_r1 ||| (moo &&& (flip_r1 >>> shift))
  let pre_l := moo &&& shl64 moo shift
  let pre_r := pre_l >>> shift
  let flip_l3 := flip_l2 ||| (pre_l &&& shl64 flip_l2 (shift + shift))
  let flip_r3 := flip_r2 ||| (pre_r &&& (flip_r2 >>> (shift + shift)))
  let flip_l4 := flip_l3 ||| (pre_l &&& shl64 flip_l3 (shift + shift))
  let flip_r4 := flip_r3 ||| (pre_r &&& (flip_r3 >>> (shift + shift)))
  shl64 flip_l4 shift ||| (flip_r4 >>> shift)

/-- `Board::get_moves_avx` as invoked by `get_legal_moves_avx2`: the four
lanes carry shifts (1, 8, 9, 7) with the horizontal, vertical and (twice)
diagonal edge masks; the final combine ORs all lanes and keeps only empty
squares. -/
def getMovesAvx (player_board opponent_board : Nat) : Nat :=
  let lane1 := avxLane (opponent_board &&& 0x7E7E7E7E7E7E7E7E) player_board 1
  let lane8 := avxLane (opponent_board &&& 0x00FFFFFFFFFFFF00) player_board 8
  let lane9 := avxLane (opponent_board &&& 0x007E7E7E7E7E7E00) player_board 9
  let lane7 := avxLane (opponent_board &&& 0x007E7E7E7E7E7E00) player_board 7
  (lane1 ||| lane8 ||| lane9 ||| lane7) &&&
    (msk64 ^^^ (player_board ||| opponent_board))

/-- `Board::get_legal_moves` (value and cache effect): returns the cached
mask if present, otherwise computes and caches it. -/
def Board.get_legal_moves (b : Board) : Nat × Board :=
  match b.legal_moves_cache with
  | some legal => (legal, b)
  | none =>
    let legal := getLegalMovesNonAvx b.player_board b.opponent_board
    (legal, { b with legal_moves_cache := some legal })

/-- `Board::is_legal_move` for a position already known to be in range. -/
def Board.is_legal_move (b : Board) (pos : Nat) : Bool × Board :=
  let (legal, b1) := b.get_legal_moves
  (legal &&& BITS pos != 0, b1)

/-- `Board::is_pass` (board.rs lines 672-693): cache fast path, otherwise
four per-direction emptiness tests with the narrow edge masks. -/
def Board.is_pass (b : Board) : Bool :=
  match b.legal_moves_cache with
  | some legal => legal == 0
  | none =>
    let mask_v := 0x7E7E7E7E7E7E7E7E &&& b.opponent_board
    let mask_h := 0x00FFFFFFFFFFFF00 &&& b.opponent_board
    let mask_a := 0x007E7E7E7E7E7E00 &&& b.opponent_board
    let enmpy := msk64 ^^^ (b.player_board ||| b.opponent_board)
    if getLegalPart mask_v b.player_board 1 &&& enmpy ≠ 0 then false
    else if getLegalPart mask_h b.player_board 8 &&& enmpy ≠ 0 then false
    else if getLegalPart mask_a b.player_board 9 &&& enmpy ≠ 0 then false
    else if getLegalPart mask_a b.player_board 7 &&& enmpy ≠ 0 then false
    else true

/-- `Board::is_game_over`: the mover passes and the (hypothetically
swapped) opponent passes too. -/
def Board.is_game_over (b : Board) : Bool :=
  if b.is_pass then
    let opponent_board : Board :=
      { player_board := b.opponent_board
        opponent_board := b.player_board
        turn := b.turn.opposite
        legal_moves_cache := none }
    opponent_board.is_pass
  else false

/-- One direction of `reverse_non_avx`, upward (`get_reverse_l!`): the
while loop that walks `mask` one step at a time through opponent stones.
Fuel 64 strictly bounds the iteration count: each iteration left-shifts
the (single-bit) mask by `dir ≥ 1`, so after at most 64 iterations the
truncated mask is 0 and the guard fails. -/
def revLoopL (maskC dir o : Nat) : Nat → Nat → Nat → Nat × Nat
  | 0, mask, tmp => (mask, tmp)
  | fuel + 1, mask, tmp =>
    if mask &&& o ≠ 0 then
      revLoopL maskC dir o fuel (maskC &&& shl64 mask dir) (tmp ||| mask)
    else (mask, tmp)

/-- One direction of `reverse_non_avx`, downward (`get_reverse_r!`). -/
def revLoopR (maskC dir o : Nat) : Nat → Nat → Nat → Nat × Nat
  | 0, mask, tmp => (mask, tmp)
  | fuel + 1, mask, tmp =>
    if mask &&& o ≠ 0 then
      revLoopR maskC dir o fuel (maskC &&& (mask >>> dir)) (tmp ||| mask)
    else (mask, tmp)

/-- The contribution of one upward direction to `reversed`. -/
def revDirL (maskC dir pos p o : Nat) : Nat :=
  let (mask, tmp) := revLoopL maskC dir o 64 (maskC &&& shl64 pos dir) 0
  if mask &&& p ≠ 0 then tmp else 0

/-- The contribution of one downward direction to `reversed`. -/
def revDirR (maskC dir pos p o : Nat) : Nat :=
  let (mask, tmp) := revLoopR maskC dir o 64 (maskC &&& (pos >>> dir)) 0
  if mask &&& p ≠ 0 then tmp else 0

/-- `Board::reverse_non_avx` (board.rs lines 520-560): flip mask over the
eight rays, then XOR into both bitboards. -/
def Board.reverse (b : Board) (pos : Nat) : Board :=
  let p := b.player_board
  let o := b.opponent_board
  let reversed :=
    revDirL 0xFEFEFEFEFEFEFEFE 1 pos p o |||
    revDirL 0xFFFFFFFFFFFFFF00 8 pos p o |||
    revDirL 0xFEFEFEFEFEFEFE00 9 pos p o |||
    revDirL 0x7F7F7F7F7F7F7F00 7 pos p o |||
    revDirR 0x7F7F7F7F7F7F7F7F 1 pos p o |||
    revDirR 0x00FFFFFFFFFFFFFF 8 pos p o |||
    revDirR 0x007F7F7F7F7F7F7F 9 pos p o |||
    revDirR 0x00FEFEFEFEFEFEFE 7 pos p o
  { b with
    player_board := p ^^^ (reversed ||| pos)
    opponent_board := o ^^^ reversed }

/-- `Board::do_move` (board.rs lines 633-647), with the board state after
the call returned alongside the `Result`. -/
def Board.do_move (b : Board) (pos : Nat) : Except BoardError Unit × Board :=
  if 64 ≤ pos then (Except.error BoardError.InvalidPosition, b)
  else
    let pos_bit := BITS pos
    let (legalb, b1) := b.is_legal_move pos
    if legalb then
      let b2 := b1.reverse pos_bit
      (Except.ok (),
        { player_board := b2.opponent_board
          opponent_board := b2.player_board
          turn := b2.turn.opposite
          legal_moves_cache := none })
    else (Except.error BoardError.InvalidMove, b1)

/-- `Board::do_pass` (board.rs lines 655-663). -/
def Board.do_pass (b : Board) : Except BoardError Unit × Board :=
  if !b.is_pass || b.is_game_over then (Except.error BoardError.InvalidPass, b)
  else
    (Except.ok (),
      { player_board := b.opponent_board
        opponent_board := b.player_board
        turn := b.turn.opposite
        legal_moves_cache := none })

/-- `Board::player_piece_num`. -/
def Board.player_piece_num (b : Board) : Nat := countOnes b.player_board

/-- `Board::opponent_piece_num`. -/
def Board.opponent_piece_num (b : Board) : Nat := countOnes b.opponent_board

/-- `Board::black_piece_num`. -/
def Board.black_piece_num (b : Board) : Nat :=
  if b.turn = Turn.Black then b.player_piece_num else b.opponent_piece_num

/-- `Board::white_piece_num`. -/
def Board.white_piece_num (b : Board) : Nat :=
  if b.turn = Turn.White then b.player_piece_num else b.opponent_piece_num

/-- `Board::get_legal_moves_vec`, value part: indices of set bits of the
legal-move mask, in ascending cell order. -/
def Board.get_legal_moves_vec (b : Board) : List Nat :=
  (List.range 64).filter (fun i => b.get_legal_moves.1 &&& BITS i ≠ 0)

/-! ### Bit-level toolkit for the 64-bit embedding -/

theorem testBit_shl64 (a s i : Nat) :
    (shl64 a s).testBit i = (decide (i < 64) && (decide (s ≤ i) && a.testBit (i - s))) := by
  simp only [shl64, Nat.testBit_mod_two_pow, Nat.testBit_shiftLeft, ge_iff_le]

theorem shl64_lt (a s : Nat) : shl64 a s < 2 ^ 64 :=
  Nat.mod_lt _ (by positivity)

theorem shl64_or (a b s : Nat) : shl64 (a ||| b) s = shl64 a s ||| shl64 b s := by
  apply Nat.eq_of_testBit_eq
  intro i
  simp [testBit_shl64, Bool.and_or_distrib_left]

theorem shr_or (a b s : Nat) : (a ||| b) >>> s = (a >>> s) ||| (b >>> s) := by
  apply Nat.eq_of_testBit_eq
  intro i
  simp

theorem shr_and (a b s : Nat) : (a &&& b) >>> s = (a >>> s) &&& (b >>> s) := by
  apply Nat.eq_of_testBit_eq
  intro i
  simp

theorem shl64_zero_val (s : Nat) : shl64 0 s = 0 := by
  simp [shl64]

theorem shl64_shl64 (a s t : Nat) : shl64 (shl64 a s) t = shl64 a (s + t) := by
  apply Nat.eq_of_testBit_eq
  intro i
  simp only [testBit_shl64]
  by_cases h1 : i < 64
  · by_cases h2 : t ≤ i
    · by_cases h3 : s ≤ i - t
      · have e1 : i - t < 64 := by omega
        have e2 : i - t - s = i - (s + t) := by omega
        have e3 : s + t ≤ i := by omega
        simp [h1, h2, h3, e1, e2, e3]
      · simp [h1, h2, h3, show ¬(s + t ≤ i) by omega]
    · simp [h2, show ¬(s + t ≤ i) by omega]
  · simp [h1]

theorem shl64_double_kill {t s : Nat} (h : shl64 t s = 0) : shl64 t (s + s) = 0 := by
  rw [← shl64_shl64, h, shl64_zero_val]

theorem shl64_and_kill {a s : Nat} (z : Nat) (h : shl64 a s = 0) : shl64 (a &&& z) s = 0 := by
  apply Nat.eq_of_testBit_eq
  intro i
  have h' : (shl64 a s).testBit i = false := by rw [h]; simp
  simp only [testBit_shl64, Nat.testBit_and, Nat.zero_testBit] at h' ⊢
  rcases Bool.and_eq_false_iff.mp h' with h1 | h2
  · simp [h1]
  · rcases Bool.and_eq_false_iff.mp h2 with h3 | h4
    · simp [h3]
    · simp [h4]

theorem shr_and_kill {a s : Nat} (z : Nat) (h : a >>> s = 0) : (a &&& z) >>> s = 0 := by
  rw [shr_and, h, Nat.zero_and]

theorem and_and_kill {a c : Nat} (b : Nat) (h : a &&& c = 0) : a &&& (b &&& c) = 0 := by
  apply Nat.eq_of_testBit_eq
  intro i
  have h' : (a &&& c).testBit i = false := by rw [h]; simp
  simp only [Nat.testBit_and, Nat.zero_testBit] at h' ⊢
  rcases Bool.and_eq_false_iff.mp h' with h1 | h2
  · simp [h1]
  · simp [h2]

theorem shr_lt {x : Nat} (s : Nat) (hx : x < 2 ^ 64) : x >>> s < 2 ^ 64 := by
  rw [Nat.shiftRight_eq_div_pow]
  exact Nat.lt_of_le_of_lt (Nat.div_le_self _ _) hx

theorem shl64_or_kill {a b s : Nat} (ha : shl64 a s = 0) (hb : shl64 b s = 0) :
    shl64 (a ||| b) s = 0 := by
  rw [shl64_or, ha, hb, Nat.or_zero]

theorem shr_or_kill {a b s : Nat} (ha : a >>> s = 0) (hb : b >>> s = 0) :
    (a ||| b) >>> s = 0 := by
  rw [shr_or, ha, hb, Nat.or_zero]

theorem shr_double_kill {t s : Nat} (h : t >>> s = 0) : t >>> (s + s) = 0 := by
  rw [Nat.shiftRight_add, h]
  simp

/-- Ghost-kill 1: a doubly left-shifted ghost contribution vanishes when
the ghost mask `d` has no bits in the window `[s, 64 - s)`. -/
theorem ghost_k1 (d s : Nat) (hd : ∀ j, s ≤ j → j < 64 - s → d.testBit j = false)
    (x : Nat) : shl64 (shl64 x s &&& d) s = 0 := by
  apply Nat.eq_of_testBit_eq
  intro i
  simp only [testBit_shl64, Nat.testBit_and, Nat.zero_testBit]
  by_cases h1 : i < 64
  · by_cases h2 : s ≤ i
    · by_cases h3 : s ≤ i - s
      · have hdf := hd (i - s) h3 (by omega)
        simp [hdf]
      · simp [h3]
    · simp [h2]
  · simp [h1]

/-- Ghost-kill 2: same as `ghost_k1` with a double-width inner shift. -/
theorem ghost_k2 (d s : Nat) (hd : ∀ j, s ≤ j → j < 64 - s → d.testBit j = false)
    (x : Nat) : shl64 (shl64 x (s + s) &&& d) s = 0 := by
  apply Nat.eq_of_testBit_eq
  intro i
  simp only [testBit_shl64, Nat.testBit_and, Nat.zero_testBit]
  by_cases h1 : i < 64
  · by_cases h2 : s ≤ i
    · by_cases h3 : s + s ≤ i - s
      · have hdf := hd (i - s) (by omega) (by omega)
        simp [hdf]
      · simp [h3]
    · simp [h2]
  · simp [h1]

/-- Ghost-kill 3: a double shift never meets the once-shifted ghost mask. -/
theorem ghost_k3 (d s : Nat) (hd : ∀ j, s ≤ j → j < 64 - s → d.testBit j = false)
    (x : Nat) : shl64 x (s + s) &&& shl64 d s = 0 := by
  apply Nat.eq_of_testBit_eq
  intro j
  simp only [testBit_shl64, Nat.testBit_and, Nat.zero_testBit]
  by_cases h1 : j < 64
  · by_cases h2 : s + s ≤ j
    · have hdf := hd (j - s) (by omega) (by omega)
      simp [hdf]
    · simp [h2]
  · simp [h1]

/-- Ghost-kill 4 (right fill): one ghost step then a right shift vanishes. -/
theorem ghost_k4 (d s : Nat) (hd : ∀ j, s ≤ j → j < 64 - s → d.testBit j = false)
    (x : Nat) (hx : x < 2 ^ 64) : ((x >>> s) &&& d) >>> s = 0 := by
  apply Nat.eq_of_testBit_eq
  intro i
  simp only [Nat.testBit_shiftRight, Nat.testBit_and, Nat.zero_testBit]
  by_cases h3 : s + i < 64 - s
  · have hdf := hd (s + i) (by omega) h3
    simp [hdf]
  · have hxf : x.testBit (s + (s + i)) = false :=
      Nat.testBit_lt_two_pow (Nat.lt_of_lt_of_le hx (Nat.pow_le_pow_right (by norm_num) (by omega)))
    simp [hxf]

/-- Ghost-kill 5 (right fill): a double-shift ghost step then a right
shift vanishes. -/
theorem ghost_k5 (d s : Nat) (hd : ∀ j, s ≤ j → j < 64 - s → d.testBit j = false)
    (x : Nat) (hx : x < 2 ^ 64) : ((x >>> (s + s)) &&& d) >>> s = 0 := by
  apply Nat.eq_of_testBit_eq
  intro i
  simp only [Nat.testBit_shiftRight, Nat.testBit_and, Nat.zero_testBit]
  by_cases h3 : s + i < 64 - s
  · have hdf := hd (s + i) (by omega) h3
    simp [hdf]
  · have hxf : x.testBit (s + s + (s + i)) = false :=
      Nat.testBit_lt_two_pow (Nat.lt_of_lt_of_le hx (Nat.pow_le_pow_right (by norm_num) (by omega)))
    simp [hxf]

/-- Ghost-kill 6 (right fill): a double right shift never meets the
once-right-shifted ghost mask. -/
theorem ghost_k6 (d s : Nat) (hd : ∀ j, s ≤ j → j < 64 - s → d.testBit j = false)
    (x : Nat) (hx : x < 2 ^ 64) : (x >>> (s + s)) &&& (d >>> s) = 0 := by
  apply Nat.eq_of_testBit_eq
  intro j
  simp only [Nat.testBit_shiftRight, Nat.testBit_and, Nat.zero_testBit]
  by_cases h3 : s + j < 64 - s
  · have hdf := hd (s + j) (by omega) h3
    simp [hdf]
  · have hxf : x.testBit (s + s + j) = false :=
      Nat.testBit_lt_two_pow (Nat.lt_of_lt_of_le hx (Nat.pow_le_pow_right (by norm_num) (by omega)))
    simp [hxf]

theorem lor4comm (a b c e : Nat) : (a ||| b) ||| (c ||| e) = (a ||| c) ||| (b ||| e) := by
  apply Nat.eq_of_testBit_eq
  intro i
  simp only [Nat.testBit_or]
  cases a.testBit i <;> cases b.testBit i <;> cases c.testBit i <;> cases e.testBit i <;> rfl

/-- One extension step of the left fill, as used by `get_legal_partial`. -/
def fillL (watchStep x σ : Nat) : Nat := x ||| (shl64 x σ &&& watchStep)

/-- One extension step of the right fill. -/
def fillR (watchStep x σ : Nat) : Nat := x ||| ((x >>> σ) &&& watchStep)

/-- `get_legal_partial` written through the two fill combinators. -/
theorem getLegalPart_eq_fill (watch p s : Nat) :
    getLegalPart watch p s =
      shl64 (fillL (watch &&& shl64 watch s)
        (fillL (watch &&& shl64 watch s) (fillL watch (shl64 p s &&& watch) s) (s + s)) (s + s)) s |||
      ((fillR (watch &&& (watch >>> s))
        (fillR (watch &&& (watch >>> s)) (fillR watch ((p >>> s) &&& watch) s) (s + s)) (s + s)) >>> s) := rfl

theorem fillL_split (W E x t σ : Nat) (hkill : shl64 t σ = 0) :
    fillL (W ||| E) (x ||| t) σ = fillL W x σ ||| (t ||| (shl64 x σ &&& E)) := by
  unfold fillL
  rw [shl64_or, hkill, Nat.or_zero, Nat.and_or_distrib_left]
  exact lor4comm x t (shl64 x σ &&& W) (shl64 x σ &&& E)

theorem fillR_split (W E x t σ : Nat) (hkill : t >>> σ = 0) :
    fillR (W ||| E) (x ||| t) σ = fillR W x σ ||| (t ||| ((x >>> σ) &&& E)) := by
  unfold fillR
  rw [shr_or, hkill, Nat.or_zero, Nat.and_or_distrib_left]
  exact lor4comm x t ((x >>> σ) &&& W) ((x >>> σ) &&& E)

/-- Splitting the doubled-watch mask into its real and ghost parts. -/
theorem watch_ghost_splitL (w d s : Nat) :
    (w ||| d) &&& shl64 (w ||| d) s =
      (w &&& shl64 w s) |||
        ((w &&& shl64 d s) ||| ((d &&& shl64 w s) ||| (d &&& shl64 d s))) := by
  rw [shl64_or, Nat.and_distrib_right, Nat.and_or_distrib_left, Nat.and_or_distrib_left,
    Nat.or_assoc]

theorem watch_ghost_splitR (w d s : Nat) :
    (w ||| d) &&& ((w ||| d) >>> s) =
      (w &&& (w >>> s)) |||
        ((w &&& (d >>> s)) ||| ((d &&& (w >>> s)) ||| (d &&& (d >>> s)))) := by
  rw [shr_or, Nat.and_distrib_right, Nat.and_or_distrib_left, Nat.and_or_distrib_left,
    Nat.or_assoc]

/-- The combined left ghost watch term is killed by one more left shift. -/
theorem ghost_kE (w d s : Nat) (hd : ∀ j, s ≤ j → j < 64 - s → d.testBit j = false)
    (x : Nat) :
    shl64 (shl64 x (s + s) &&&
      ((w &&& shl64 d s) ||| ((d &&& shl64 w s) ||| (d &&& shl64 d s)))) s = 0 := by
  rw [Nat.and_or_distrib_left, Nat.and_or_distrib_left]
  apply shl64_or_kill
  · rw [Nat.and_comm w (shl64 d s), ← Nat.and_assoc]
    rw [ghost_k3 d s hd x]
    simp [shl64_zero_val]
  · apply shl64_or_kill
    · rw [← Nat.and_assoc]
      exact shl64_and_kill _ (ghost_k2 d s hd x)
    · rw [← Nat.and_assoc]
      exact shl64_and_kill _ (ghost_k2 d s hd x)

/-- The combined right ghost watch term is killed by one more right shift. -/
theorem ghost_kF (w d s : Nat) (hd : ∀ j, s ≤ j → j < 64 - s → d.testBit j = false)
    (x : Nat) (hx : x < 2 ^ 64) :
    ((x >>> (s + s)) &&&
      ((w &&& (d >>> s)) ||| ((d &&& (w >>> s)) ||| (d &&& (d >>> s))))) >>> s = 0 := by
  rw [Nat.and_or_distrib_left, Nat.and_or_distrib_left]
  apply shr_or_kill
  · rw [Nat.and_comm w (d >>> s), ← Nat.and_assoc]
    rw [ghost_k6 d s hd x hx]
    simp
  · apply shr_or_kill
    · rw [← Nat.and_assoc]
      exact shr_and_kill _ (ghost_k5 d s hd x hx)
    · rw [← Nat.and_assoc]
      exact shr_and_kill _ (ghost_k5 d s hd x hx)

/-- Ghost-watch elimination: enlarging the watch mask by bits `d` that
live only in the first `s` and last `s` bit positions of the word leaves
`get_legal_partial` unchanged.  This is the reason the scalar and AVX2
implementations may use different edge masks per direction. -/
theorem getLegalPart_ghost (w d p s : Nat) (hw : w < 2 ^ 64) (hp : p < 2 ^ 64)
    (hd : ∀ j, s ≤ j → j < 64 - s → d.testBit j = false) :
    getLegalPart (w ||| d) p s = getLegalPart w p s := by
  rw [getLegalPart_eq_fill, getLegalPart_eq_fill]
  rw [Nat.and_or_distrib_left (shl64 p s) w d, Nat.and_or_distrib_left (p >>> s) w d]
  rw [watch_ghost_splitL w d s, watch_ghost_splitR w d s]
  set x1 := shl64 p s &&& w with hx1
  set t1 := shl64 p s &&& d with ht1
  set y1 := (p >>> s) &&& w with hy1
  set u1 := (p >>> s) &&& d with hu1
  set wl := w &&& shl64 w s with hwl
  set Ewl := (w &&& shl64 d s) ||| ((d &&& shl64 w s) ||| (d &&& shl64 d s)) with hEwl
  set wr := w &&& (w >>> s) with hwr
  set Fwr := (w &&& (d >>> s)) ||| ((d &&& (w >>> s)) ||| (d &&& (d >>> s))) with hFwr
  have k1 : shl64 t1 s = 0 := by rw [ht1]; exact ghost_k1 d s hd p
  rw [fillL_split w d x1 t1 s k1]
  set FL2 := fillL w x1 s with hFL2
  set t2 := t1 ||| (shl64 x1 s &&& d) with ht2
  have k2 : shl64 t2 s = 0 := by
    rw [ht2, ht1]
    exact shl64_or_kill (ghost_k1 d s hd p) (ghost_k1 d s hd x1)
  rw [fillL_split wl Ewl FL2 t2 (s + s) (shl64_double_kill k2)]
  set FL3 := fillL wl FL2 (s + s) with hFL3
  set t3 := t2 ||| (shl64 FL2 (s + s) &&& Ewl) with ht3
  have kE2 : shl64 (shl64 FL2 (s + s) &&& Ewl) s = 0 := by
    rw [hEwl]; exact ghost_kE w d s hd FL2
  have k3 : shl64 t3 s = 0 := by rw [ht3]; exact shl64_or_kill k2 kE2
  rw [fillL_split wl Ewl FL3 t3 (s + s) (shl64_double_kill k3)]
  set t4 := t3 ||| (shl64 FL3 (s + s) &&& Ewl) with ht4
  have kE3 : shl64 (shl64 FL3 (s + s) &&& Ewl) s = 0 := by
    rw [hEwl]; exact ghost_kE w d s hd FL3
  have k4 : shl64 t4 s = 0 := by rw [ht4]; exact shl64_or_kill k3 kE3
  rw [shl64_or, k4, Nat.or_zero]
  have hy1b : y1 < 2 ^ 64 := by rw [hy1]; exact Nat.and_lt_two_pow _ hw
  have k1r : u1 >>> s = 0 := by rw [hu1]; exact ghost_k4 d s hd p hp
  rw [fillR_split w d y1 u1 s k1r]
  set FR2 := fillR w y1 s with hFR2
  set u2 := u1 ||| ((y1 >>> s) &&& d) with hu2
  have k2r : u2 >>> s = 0 := by
    rw [hu2]
    exact shr_or_kill k1r (ghost_k4 d s hd y1 hy1b)
  have hFR2b : FR2 < 2 ^ 64 := by
    rw [hFR2]; unfold fillR
    exact Nat.or_lt_two_pow hy1b (Nat.and_lt_two_pow _ hw)
  rw [fillR_split wr Fwr FR2 u2 (s + s) (shr_double_kill k2r)]
  set FR3 := fillR wr FR2 (s + s) with hFR3
  set u3 := u2 ||| ((FR2 >>> (s + s)) &&& Fwr) with hu3
  have kF2 : ((FR2 >>> (s + s)) &&& Fwr) >>> s = 0 := by
    rw [hFwr]; exact ghost_kF w d s hd FR2 hFR2b
  have k3r : u3 >>> s = 0 := by rw [hu3]; exact shr_or_kill k2r kF2
  have hwrb : wr < 2 ^ 64 := by rw [hwr]; exact Nat.and_lt_two_pow _ (shr_lt s hw)
  have hFR3b : FR3 < 2 ^ 64 := by
    rw [hFR3]; unfold fillR
    exact Nat.or_lt_two_pow hFR2b (Nat.and_lt_two_pow _ hwrb)
  rw [fillR_split wr Fwr FR3 u3 (s + s) (shr_double_kill k3r)]
  set u4 := u3 ||| ((FR3 >>> (s + s)) &&& Fwr) with hu4
  have kF3 : ((FR3 >>> (s + s)) &&& Fwr) >>> s = 0 := by
    rw [hFwr]; exact ghost_kF w d s hd FR3 hFR3b
  have k4r : u4 >>> s = 0 := by rw [hu4]; exact shr_or_kill k3r kF3
  rw [shr_or, k4r, Nat.or_zero]

/-- The AVX `pre_r` shortcut `(moo & (moo << s)) >> s` equals the scalar
`watch_r = moo & (moo >> s)` for 64-bit values. -/
theorem pre_r_eq (moo s : Nat) (h : moo < 2 ^ 64) :
    (moo &&& shl64 moo s) >>> s = moo &&& (moo >>> s) := by
  apply Nat.eq_of_testBit_eq
  intro i
  simp only [Nat.testBit_shiftRight, Nat.testBit_and, testBit_shl64]
  by_cases h1 : s + i < 64
  · have e : s + i - s = i := by omega
    simp [h1, e]
    cases moo.testBit i <;> cases moo.testBit (s + i) <;> rfl
  · have hf : moo.testBit (s + i) = false :=
      Nat.testBit_lt_two_pow (Nat.lt_of_lt_of_le h (Nat.pow_le_pow_right (by norm_num) (by omega)))
    simp [hf]

/-- Each AVX lane computes exactly the scalar fill on its own watch mask. -/
theorem avxLane_eq (moo p s : Nat) (h : moo < 2 ^ 64) :
    avxLane moo p s = getLegalPart moo p s := by
  simp only [avxLane, getLegalPart]
  rw [pre_r_eq moo s h]
  simp only [Nat.and_comm moo]
  simp only [Nat.and_comm (shl64 moo s &&& moo), Nat.and_comm ((moo >>> s) &&& moo)]

theorem and_msk64_self {o : Nat} (ho : o < 2 ^ 64) : o &&& msk64 = o := by
  apply Nat.eq_of_testBit_eq
  intro i
  simp only [Nat.testBit_and, msk64, Nat.testBit_two_pow_sub_one]
  by_cases h : i < 64
  · simp [h]
  · have hf : o.testBit i = false :=
      Nat.testBit_lt_two_pow (Nat.lt_of_lt_of_le ho (Nat.pow_le_pow_right (by norm_num) (by omega)))
    simp [hf]

theorem or_and_split (o A B : Nat) : (o &&& A) ||| (o &&& B) = o &&& (A ||| B) :=
  (Nat.and_or_distrib_left o A B).symm

theorem hd_vert : ∀ j, 8 ≤ j → j < 64 - 8 → (0xFF000000000000FF : Nat).testBit j = false := by
  intro j h1 h2
  have e : (0xFF000000000000FF : Nat) = 0xFF ||| (0xFF <<< 56) := by decide
  rw [e]
  simp only [Nat.testBit_or, Nat.testBit_shiftLeft, ge_iff_le]
  have hpj : (2 : Nat) ^ 8 ≤ 2 ^ j := Nat.pow_le_pow_right (by norm_num) h1
  have l1 : (0xFF : Nat).testBit j = false := Nat.testBit_lt_two_pow (by omega)
  simp [l1, show ¬(56 ≤ j) by omega]

theorem hd_diag9 : ∀ j, 9 ≤ j → j < 64 - 9 → (0x7E0000000000007E : Nat).testBit j = false := by
  intro j h1 h2
  have e : (0x7E0000000000007E : Nat) = 0x7E ||| (0x7E <<< 56) := by decide
  rw [e]
  simp only [Nat.testBit_or, Nat.testBit_shiftLeft, ge_iff_le]
  have hpj : (2 : Nat) ^ 7 ≤ 2 ^ j := Nat.pow_le_pow_right (by norm_num) (by omega)
  have l1 : (0x7E : Nat).testBit j = false := Nat.testBit_lt_two_pow (by omega)
  simp [l1, show ¬(56 ≤ j) by omega]

theorem hd_diag7 : ∀ j, 7 ≤ j → j < 64 - 7 → (0x7E0000000000007E : Nat).testBit j = false := by
  intro j h1 h2
  have e : (0x7E0000000000007E : Nat) = 0x7E ||| (0x7E <<< 56) := by decide
  rw [e]
  simp only [Nat.testBit_or, Nat.testBit_shiftLeft, ge_iff_le]
  have hpj : (2 : Nat) ^ 7 ≤ 2 ^ j := Nat.pow_le_pow_right (by norm_num) h1
  have l1 : (0x7E : Nat).testBit j = false := Nat.testBit_lt_two_pow (by omega)
  by_cases h56 : 56 ≤ j
  · have e2 : j - 56 = 0 := by omega
    simp [l1, e2]
  · simp [l1, h56]

/-- Vertical direction: the scalar fill on the full opponent board agrees
with the fill on the AVX2 row-masked opponent board. -/
theorem getLegalPart_vert (p o : Nat) (hp : p < 2 ^ 64) (ho : o < 2 ^ 64) :
    getLegalPart o p 8 = getLegalPart (o &&& 0x00FFFFFFFFFFFF00) p 8 := by
  have hsplit : (o &&& 0x00FFFFFFFFFFFF00) ||| (o &&& 0xFF000000000000FF) = o := by
    rw [or_and_split]
    rw [show (0x00FFFFFFFFFFFF00 : Nat) ||| 0xFF000000000000FF = msk64 by decide]
    exact and_msk64_self ho
  conv_lhs => rw [← hsplit]
  exact getLegalPart_ghost _ _ p 8 (Nat.and_lt_two_pow _ (by norm_num)) hp
    (fun j h1 h2 => by simp [Nat.testBit_and, hd_vert j h1 h2])

/-- Up-left/down-right diagonal: the scalar fill on the column-masked
opponent board agrees with the fill on the AVX2 fully-masked board. -/
theorem getLegalPart_diag9 (p o : Nat) (hp : p < 2 ^ 64) (ho : o < 2 ^ 64) :
    getLegalPart (o &&& 0x7E7E7E7E7E7E7E7E) p 9 = getLegalPart (o &&& 0x007E7E7E7E7E7E00) p 9 := by
  have hsplit : (o &&& 0x007E7E7E7E7E7E00) ||| (o &&& 0x7E0000000000007E) =
      o &&& 0x7E7E7E7E7E7E7E7E := by
    rw [or_and_split]
    rw [show (0x007E7E7E7E7E7E00 : Nat) ||| 0x7E0000000000007E = 0x7E7E7E7E7E7E7E7E by decide]
  conv_lhs => rw [← hsplit]
  exact getLegalPart_ghost _ _ p 9 (Nat.and_lt_two_pow _ (by norm_num)) hp
    (fun j h1 h2 => by simp [Nat.testBit_and, hd_diag9 j h1 h2])

/-- Up-right/down-left diagonal: same as `getLegalPart_diag9` with shift 7. -/
theorem getLegalPart_diag7 (p o : Nat) (hp : p < 2 ^ 64) (ho : o < 2 ^ 64) :
    getLegalPart (o &&& 0x7E7E7E7E7E7E7E7E) p 7 = getLegalPart (o &&& 0x007E7E7E7E7E7E00) p 7 := by
  have hsplit : (o &&& 0x007E7E7E7E7E7E00) ||| (o &&& 0x7E0000000000007E) =
      o &&& 0x7E7E7E7E7E7E7E7E := by
    rw [or_and_split]
    rw [show (0x007E7E7E7E7E7E00 : Nat) ||| 0x7E0000000000007E = 0x7E7E7E7E7E7E7E7E by decide]
  conv_lhs => rw [← hsplit]
  exact getLegalPart_ghost _ _ p 7 (Nat.and_lt_two_pow _ (by norm_num)) hp
    (fun j h1 h2 => by simp [Nat.testBit_and, hd_diag7 j h1 h2])

/-- Claim C1: for every board state (every pair of disjoint 64-bit masks
`player_board` / `opponent_board`), the scalar fill implementation of
legal-move generation (`get_legal_moves_non_avx`) and the AVX2 vector
implementation (`get_moves_avx`, as invoked by `get_legal_moves_avx2`)
return the identical 64-bit legal-move mask. -/
theorem c1_scalar_eq_avx (p o : Nat) (hp : p < 2 ^ 64) (ho : o < 2 ^ 64)
    (hdisj : p &&& o = 0) :
    getLegalMovesNonAvx p o = getMovesAvx p o := by
  simp only [getLegalMovesNonAvx, getMovesAvx]
  rw [avxLane_eq _ p 1 (Nat.and_lt_two_pow _ (by norm_num)),
    avxLane_eq _ p 8 (Nat.and_lt_two_pow _ (by norm_num)),
    avxLane_eq _ p 9 (Nat.and_lt_two_pow _ (by norm_num)),
    avxLane_eq _ p 7 (Nat.and_lt_two_pow _ (by norm_num))]
  rw [Nat.and_comm 0x7E7E7E7E7E7E7E7E o]
  rw [getLegalPart_vert p o hp ho, getLegalPart_diag9 p o hp ho, getLegalPart_diag7 p o hp ho]

/-- Witness for C1: the two implementations agree at the starting
position, where both compute the four standard opening moves. -/
theorem c1_scalar_eq_avx_witness :
    (0x0000000810000000 : Nat) < 2 ^ 64 ∧ (0x0000001008000000 : Nat) < 2 ^ 64 ∧
      (0x0000000810000000 : Nat) &&& 0x0000001008000000 = 0 ∧
      getLegalMovesNonAvx 0x0000000810000000 0x0000001008000000 =
        getMovesAvx 0x0000000810000000 0x0000001008000000 ∧
      getLegalMovesNonAvx 0x0000000810000000 0x0000001008000000 = 0x0000102004080000 :=
  ⟨by decide, by decide, by decide,
    c1_scalar_eq_avx _ _ (by decide) (by decide) (by decide), by decide⟩

/-- Claim C9: from the standard start position the legal-move set is
exactly the cells 19, 26, 37, 44 (coordinates (2,3), (3,2), (4,5), (5,4)),
and applying the move at cell 19 yields 4 black stones, 1 white stone and
White to move. -/
theorem c9_start_scenario :
    Board.default.get_legal_moves_vec = [19, 26, 37, 44] ∧
      (Board.default.do_move 19).1 = Except.ok () ∧
      (Board.default.do_move 19).2.black_piece_num = 4 ∧
      (Board.default.do_move 19).2.white_piece_num = 1 ∧
      (Board.default.do_move 19).2.turn = Turn.White := by decide

/-- `Board::get_child_boards`: `None` when the mover must pass, else one
successor board per legal move, in ascending cell order. -/
def Board.get_child_boards (b : Board) : Option (List Board) :=
  if b.is_pass then none
  else
    let (legal, b1) := b.get_legal_moves
    some (((List.range 64).filter (fun i => legal &&& BITS i ≠ 0)).map
      (fun i => (b1.do_move i).2))

/-- `MctsNode::expand` invoked on a fresh root node (mcts.rs lines 27-46):
`none` models the explicit panic on an already-terminal board and the
`unwrap` panic of `do_pass`. -/
def mctsRootExpand (b : Board) : Option (List Board) :=
  if b.is_game_over then none
  else
    match b.get_child_boards with
    | some children => some children
    | none =>
      match b.do_pass with
      | (Except.ok _, b2) => some [b2]
      | (Except.error _, _) => none

/-- `ThunderNode::expand` invoked on a fresh root node (thunder.rs lines
31-48): no terminal check; `none` models the `unwrap` panic of `do_pass`. -/
def thunderRootExpand (b : Board) : Option (List Board) :=
  match b.get_child_boards with
  | some children => some children
  | none =>
    match b.do_pass with
    | (Except.ok _, b2) => some [b2]
    | (Except.error _, _) => none

/-- Counterexample to claim C3: on a concrete terminal board (no stones at
all, so both sides pass), the root expansion performed unconditionally by
`MctsSearch::get_move` and `ThunderSearch::get_move` panics instead of
completing. -/
theorem c3_counterexample :
    (Board.mk 0 0 Turn.Black none).is_game_over = true ∧
      mctsRootExpand (Board.mk 0 0 Turn.Black none) = none ∧
      thunderRootExpand (Board.mk 0 0 Turn.Black none) = none := by decide

/-- Claim C3 amended: on every terminal root board, `MctsSearch::get_move`
and `ThunderSearch::get_move` panic rather than special-case it — Mcts in
the explicit terminal check of `MctsNode::expand`, Thunder by unwrapping
`do_pass` on a terminal board.  (The terminal special case exists only in
`get_search_score`.) -/
theorem c3_terminal_root_panics (b : Board) (h : b.is_game_over = true) :
    mctsRootExpand b = none ∧ thunderRootExpand b = none := by
  have hpass : b.is_pass = true := by
    unfold Board.is_game_over at h
    by_cases hp : b.is_pass
    · exact hp
    · simp [hp] at h
  refine ⟨by unfold mctsRootExpand; simp [h], ?_⟩
  unfold thunderRootExpand Board.get_child_boards Board.do_pass
  simp [hpass, h]

/-- Witness for the amended C3 at a concrete terminal board. -/
theorem c3_terminal_root_panics_witness :
    mctsRootExpand (Board.mk 0 0 Turn.Black none) = none ∧
      thunderRootExpand (Board.mk 0 0 Turn.Black none) = none :=
  c3_terminal_root_panics (Board.mk 0 0 Turn.Black none) (by decide)

theorem get_legal_moves_snd_fields (b : Board) :
    (b.get_legal_moves.2.player_board = b.player_board ∧
      b.get_legal_moves.2.opponent_board = b.opponent_board ∧
      b.get_legal_moves.2.turn = b.turn) := by
  unfold Board.get_legal_moves
  cases b.legal_moves_cache <;> simp

/-- Counterexample to claim C4: a failed `do_move` with `InvalidMove` does
mutate the board observably — it fills the legal-move cache, and the
derived `PartialEq` of `Board` compares the cache field. -/
theorem c4_counterexample :
    (Board.default.do_move 0).1 = Except.error BoardError.InvalidMove ∧
      (Board.default.do_move 0).2 ≠ Board.default := by decide

/-- Claim C4 amended: `do_move` returns `Err(InvalidPosition)` for
`pos ≥ 64` leaving the board fully unchanged; it returns
`Err(InvalidMove)` for an in-range illegal `pos`, leaving the bitboards
and the turn unchanged but possibly populating the legal-move cache
(the board after failure is exactly the board after the `is_legal_move`
query). -/
theorem c4_do_move_error_handling (b : Board) (pos : Nat) :
    (64 ≤ pos → b.do_move pos = (Except.error BoardError.InvalidPosition, b)) ∧
      (pos < 64 → (b.is_legal_move pos).1 = false →
        b.do_move pos = (Except.error BoardError.InvalidMove, (b.is_legal_move pos).2) ∧
          (b.is_legal_move pos).2.player_board = b.player_board ∧
          (b.is_legal_move pos).2.opponent_board = b.opponent_board ∧
          (b.is_legal_move pos).2.turn = b.turn) := by
  constructor
  · intro h
    unfold Board.do_move
    simp [h]
  · intro hlt hleg
    have hfields := get_legal_moves_snd_fields b
    have hpair : b.is_legal_move pos = (false, (b.is_legal_move pos).2) := by
      rw [← hleg]
    refine ⟨?_, ?_, ?_, ?_⟩
    · unfold Board.do_move
      rw [if_neg (by omega)]
      rw [hpair]
      rfl
    · unfold Board.is_legal_move
      exact hfields.1
    · unfold Board.is_legal_move
      exact hfields.2.1
    · unfold Board.is_legal_move
      exact hfields.2.2

/-- Witness for the amended C4 at concrete inputs: position 70 is out of
range, position 0 is in range but illegal from the start position. -/
theorem c4_do_move_error_handling_witness :
    Board.default.do_move 70 = (Except.error BoardError.InvalidPosition, Board.default) ∧
      Board.default.do_move 0 =
        (Except.error BoardError.InvalidMove, (Board.default.is_legal_move 0).2) :=
  ⟨(c4_do_move_error_handling Board.default 70).1 (by decide),
    ((c4_do_move_error_handling Board.default 0).2 (by decide) (by decide)).1⟩

/-- Result of `set_board_str`: success, error, or a Rust panic (the
out-of-bounds `BITS[i]` index for a stone character at position ≥ 64). -/
inductive SetRes where
  | ok (b : Board)
  | err (e : BoardError)
  | panicked
deriving DecidableEq, Repr

/-- Intermediate state of the `set_board_str` character loop. -/
inductive StrParse where
  | okb (black white : Nat)
  | invalidChar
  | outOfBounds
deriving DecidableEq, Repr

/-- The character loop of `set_board_str` (board.rs lines 186-195): `i`
is the running index of `chars().enumerate()`; a stone character at an
index outside the 64-entry `BITS` array is an index-out-of-bounds panic. -/
def setBoardStrGo : List Char → Nat → Nat → Nat → StrParse
  | [], _, black, white => StrParse.okb black white
  | c :: rest, i, black, white =>
    if c = 'X' then
      if i < 64 then setBoardStrGo rest (i + 1) (black ||| BITS i) white
      else StrParse.outOfBounds
    else if c = 'O' then
      if i < 64 then setBoardStrGo rest (i + 1) black (white ||| BITS i)
      else StrParse.outOfBounds
    else if c = '-' then setBoardStrGo rest (i + 1) black white
    else StrParse.invalidChar

/-- `Board::set_board`. -/
def Board.set_board (b : Board) (player opponent : Nat) (t : Turn) : Board :=
  { player_board := player
    opponent_board := opponent
    turn := t
    legal_moves_cache := none }

/-- `Board::set_board_str` (board.rs lines 183-202). -/
def Board.set_board_str (b : Board) (board_str : List Char) (turn : Turn) : SetRes :=
  match setBoardStrGo board_str 0 0 0 with
  | StrParse.invalidChar => SetRes.err BoardError.InvalidCharactor
  | StrParse.outOfBounds => SetRes.panicked
  | StrParse.okb black white =>
    match turn with
    | Turn.Black => SetRes.ok (b.set_board black white Turn.Black)
    | Turn.White => SetRes.ok (b.set_board white black Turn.White)

/-- A character of the three-symbol board alphabet. -/
def validChar (c : Char) : Prop := c = 'X' ∨ c = 'O' ∨ c = '-'

instance (c : Char) : Decidable (validChar c) := by
  unfold validChar
  infer_instance

theorem setBoardStrGo_ok (chars : List Char) :
    ∀ i black white, i + chars.length ≤ 64 → (∀ c ∈ chars, validChar c) →
      ∃ bw : Nat × Nat, setBoardStrGo chars i black white = StrParse.okb bw.1 bw.2 := by
  induction chars with
  | nil => intro i black white _ _; exact ⟨(black, white), rfl⟩
  | cons c rest ih =>
    intro i black white hlen hvalid
    have hi : i < 64 := by simp at hlen; omega
    have hc : validChar c := hvalid c (by simp)
    have hrest : ∀ x ∈ rest, validChar x := fun x hx => hvalid x (by simp [hx])
    have hlen' : i + 1 + rest.length ≤ 64 := by simp at hlen; omega
    rcases hc with h | h | h
    · rw [show setBoardStrGo (c :: rest) i black white =
        setBoardStrGo rest (i + 1) (black ||| BITS i) white by simp [setBoardStrGo, h, hi]]
      exact ih (i + 1) _ _ hlen' hrest
    · rw [show setBoardStrGo (c :: rest) i black white =
        setBoardStrGo rest (i + 1) black (white ||| BITS i) by
          simp [setBoardStrGo, h, hi]]
      exact ih (i + 1) _ _ hlen' hrest
    · rw [show setBoardStrGo (c :: rest) i black white =
        setBoardStrGo rest (i + 1) black white by simp [setBoardStrGo, h]]
      exact ih (i + 1) _ _ hlen' hrest

theorem setBoardStrGo_err_iff (chars : List Char) :
    ∀ i black white, i + chars.length ≤ 64 →
      (setBoardStrGo chars i black white = StrParse.invalidChar ↔
        ∃ c ∈ chars, ¬validChar c) := by
  induction chars with
  | nil => intro i black white _; simp [setBoardStrGo]
  | cons c rest ih =>
    intro i black white hlen
    have hi : i < 64 := by simp at hlen; omega
    have hlen' : i + 1 + rest.length ≤ 64 := by simp at hlen; omega
    by_cases hX : c = 'X'
    · rw [show setBoardStrGo (c :: rest) i black white =
        setBoardStrGo rest (i + 1) (black ||| BITS i) white by simp [setBoardStrGo, hX, hi]]
      rw [ih (i + 1) _ _ hlen']
      simp [hX, validChar]
    · by_cases hO : c = 'O'
      · rw [show setBoardStrGo (c :: rest) i black white =
          setBoardStrGo rest (i + 1) black (white ||| BITS i) by simp [setBoardStrGo, hX, hO, hi]]
        rw [ih (i + 1) _ _ hlen']
        simp [hO, validChar]
      · by_cases hE : c = '-'
        · rw [show setBoardStrGo (c :: rest) i black white =
            setBoardStrGo rest (i + 1) black white by simp [setBoardStrGo, hX, hO, hE]]
          rw [ih (i + 1) _ _ hlen']
          simp [hE, validChar]
        · rw [show setBoardStrGo (c :: rest) i black white = StrParse.invalidChar by
            simp [setBoardStrGo, hX, hO, hE]]
          constructor
          · intro _
            exact ⟨c, by simp, by simp [validChar, hX, hO, hE]⟩
          · intro _; rfl

/-- Counterexample to claim C10: on the 65-character input `"-" * 64 ++ "q"`
every character within the first 64 is in the alphabet, yet
`set_board_str` returns `Err(InvalidCharactor)` — the invalid character
test is not limited to the first 64 characters. -/
theorem c10_counterexample :
    (∀ c ∈ (List.replicate 64 '-' ++ ['q']).take 64, validChar c) ∧
      Board.default.set_board_str (List.replicate 64 '-' ++ ['q']) Turn.Black =
        SetRes.err BoardError.InvalidCharactor := by decide

/-- Claim C10 amended: `set_board_str` never validates the input length;
every string of length at most 64 whose characters are all in
`{X, O, -}` yields `Ok` (shorter strings leave the trailing cells empty),
and, among strings of length at most 64, it returns
`Err(InvalidCharactor)` exactly when some character is outside the
alphabet.  (For longer strings the error can also be triggered by an
invalid character beyond index 63, and a stone character beyond index 63
panics on the `BITS` index instead.) -/
theorem c10_set_board_str_length (b : Board) (t : Turn) (chars : List Char)
    (hlen : chars.length ≤ 64) :
    ((∀ c ∈ chars, validChar c) → ∃ b', b.set_board_str chars t = SetRes.ok b') ∧
      (b.set_board_str chars t = SetRes.err BoardError.InvalidCharactor ↔
        ∃ c ∈ chars, ¬validChar c) := by
  constructor
  · intro hvalid
    obtain ⟨bw, hbw⟩ := setBoardStrGo_ok chars 0 0 0 (by omega) hvalid
    unfold Board.set_board_str
    rw [hbw]
    cases t
    · exact ⟨_, rfl⟩
    · exact ⟨_, rfl⟩
  · unfold Board.set_board_str
    rw [← setBoardStrGo_err_iff chars 0 0 0 (by omega)]
    cases hgo : setBoardStrGo chars 0 0 0
    · cases t <;> simp
    · simp
    · simp

/-- Witness for the amended C10: the empty string and a short valid
string are accepted; a short invalid string is rejected. -/
theorem c10_set_board_str_length_witness :
    (∃ b', Board.default.set_board_str ['X', 'O', '-'] Turn.Black = SetRes.ok b') ∧
      (Board.default.set_board_str ['X', 'q'] Turn.Black =
          SetRes.err BoardError.InvalidCharactor ↔ ∃ c ∈ ['X', 'q'], ¬validChar c) :=
  ⟨(c10_set_board_str_length Board.default Turn.Black ['X', 'O', '-'] (by decide)).1
      (by decide),
    (c10_set_board_str_length Board.default Turn.Black ['X', 'q'] (by decide)).2⟩

/-! ### Single-bit reasoning for `reverse_non_avx` -/

/-- "Single bit or zero": the shape of the walking `mask` in the reverse
loops (the placed stone is one bit, and shifts/masks preserve the shape). -/
def SB (m : Nat) : Prop := m = 0 ∨ ∃ k, m = 2 ^ k

theorem and_pow_eq (m j : Nat) : m &&& 2 ^ j = if m.testBit j then 2 ^ j else 0 := by
  by_cases h : m.testBit j
  · rw [if_pos h]
    apply Nat.eq_of_testBit_eq
    intro i
    simp only [Nat.testBit_and, Nat.testBit_two_pow]
    by_cases hij : j = i
    · subst hij; simp [h]
    · simp [hij]
  · rw [if_neg h]
    apply Nat.eq_of_testBit_eq
    intro i
    simp only [Nat.testBit_and, Nat.testBit_two_pow, Nat.zero_testBit]
    by_cases hij : j = i
    · subst hij; simp [h]
    · simp [hij]

theorem shl64_pow (k dir : Nat) :
    shl64 (2 ^ k) dir = if k + dir < 64 then 2 ^ (k + dir) else 0 := by
  unfold shl64
  rw [Nat.shiftLeft_eq, ← Nat.pow_add]
  by_cases h : k + dir < 64
  · rw [if_pos h]
    exact Nat.mod_eq_of_lt (Nat.pow_lt_pow_right (by norm_num) h)
  · rw [if_neg h]
    exact Nat.mod_eq_zero_of_dvd (Nat.pow_dvd_pow 2 (by omega))

theorem SB_and (m x : Nat) (h : SB x) : SB (m &&& x) := by
  rcases h with h | ⟨k, h⟩
  · subst h; left; simp
  · subst h
    rw [and_pow_eq]
    by_cases hb : m.testBit k
    · right; exact ⟨k, by rw [if_pos hb]⟩
    · left; rw [if_neg hb]

theorem SB_shl64 (x dir : Nat) (h : SB x) : SB (shl64 x dir) := by
  rcases h with h | ⟨k, h⟩
  · subst h; left; exact shl64_zero_val dir
  · subst h
    rw [shl64_pow]
    by_cases hlt : k + dir < 64
    · right; exact ⟨k + dir, by rw [if_pos hlt]⟩
    · left; rw [if_neg hlt]

theorem SB_shr (x dir : Nat) (h : SB x) : SB (x >>> dir) := by
  rcases h with h | ⟨k, h⟩
  · subst h; left; simp
  · subst h
    rw [Nat.shiftRight_eq_div_pow]
    by_cases hle : dir ≤ k
    · right
      exact ⟨k - dir, by rw [Nat.pow_div hle (by norm_num)]⟩
    · left
      exact Nat.div_eq_of_lt (Nat.pow_lt_pow_right (by norm_num) (by omega))

theorem SB_and_self {x o : Nat} (h : SB x) (hne : x &&& o ≠ 0) : x &&& o = x := by
  rcases h with h | ⟨k, h⟩
  · subst h; simp at hne
  · subst h
    rw [Nat.and_comm, and_pow_eq] at hne ⊢
    by_cases hb : o.testBit k
    · rw [if_pos hb]
    · rw [if_neg hb] at hne; simp at hne

theorem or_sub {a b o : Nat} (ha : a &&& o = a) (hb : b &&& o = b) :
    (a ||| b) &&& o = a ||| b := by
  rw [Nat.and_distrib_right, ha, hb]

theorem revLoopL_sub (maskC dir o : Nat) :
    ∀ fuel mask tmp, SB mask → tmp &&& o = tmp →
      (revLoopL maskC dir o fuel mask tmp).2 &&& o = (revLoopL maskC dir o fuel mask tmp).2 := by
  intro fuel
  induction fuel with
  | zero => intro mask tmp _ ht; simpa [revLoopL] using ht
  | succ n ih =>
    intro mask tmp hsb ht
    unfold revLoopL
    by_cases hg : mask &&& o ≠ 0
    · rw [if_pos hg]
      exact ih _ _ (SB_and maskC _ (SB_shl64 mask dir hsb))
        (by rw [Nat.and_distrib_right, ht, SB_and_self hsb hg])
    · rw [if_neg hg]
      exact ht

theorem revLoopR_sub (maskC dir o : Nat) :
    ∀ fuel mask tmp, SB mask → tmp &&& o = tmp →
      (revLoopR maskC dir o fuel mask tmp).2 &&& o = (revLoopR maskC dir o fuel mask tmp).2 := by
  intro fuel
  induction fuel with
  | zero => intro mask tmp _ ht; simpa [revLoopR] using ht
  | succ n ih =>
    intro mask tmp hsb ht
    unfold revLoopR
    by_cases hg : mask &&& o ≠ 0
    · rw [if_pos hg]
      exact ih _ _ (SB_and maskC _ (SB_shr mask dir hsb))
        (by rw [Nat.and_distrib_right, ht, SB_and_self hsb hg])
    · rw [if_neg hg]
      exact ht

theorem revDirL_eq (maskC dir pos p o : Nat) :
    revDirL maskC dir pos p o =
      if (revLoopL maskC dir o 64 (maskC &&& shl64 pos dir) 0).1 &&& p ≠ 0 then
        (revLoopL maskC dir o 64 (maskC &&& shl64 pos dir) 0).2
      else 0 := rfl

theorem revDirL_sub (maskC dir pos p o : Nat) (hsb : SB pos) :
    revDirL maskC dir pos p o &&& o = revDirL maskC dir pos p o := by
  have h := revLoopL_sub maskC dir o 64 (maskC &&& shl64 pos dir) 0
    (SB_and _ _ (SB_shl64 _ _ hsb)) (by simp)
  rw [revDirL_eq]
  by_cases hm : (revLoopL maskC dir o 64 (maskC &&& shl64 pos dir) 0).1 &&& p ≠ 0
  · rw [if_pos hm]
    exact h
  · rw [if_neg hm]
    simp

theorem revDirR_eq (maskC dir pos p o : Nat) :
    revDirR maskC dir pos p o =
      if (revLoopR maskC dir o 64 (maskC &&& (pos >>> dir)) 0).1 &&& p ≠ 0 then
        (revLoopR maskC dir o 64 (maskC &&& (pos >>> dir)) 0).2
      else 0 := rfl

theorem revDirR_sub (maskC dir pos p o : Nat) (hsb : SB pos) :
    revDirR maskC dir pos p o &&& o = revDirR maskC dir pos p o := by
  have h := revLoopR_sub maskC dir o 64 (maskC &&& (pos >>> dir)) 0
    (SB_and _ _ (SB_shr _ _ hsb)) (by simp)
  rw [revDirR_eq]
  by_cases hm : (revLoopR maskC dir o 64 (maskC &&& (pos >>> dir)) 0).1 &&& p ≠ 0
  · rw [if_pos hm]
    exact h
  · rw [if_neg hm]
    simp

/-- The flip mask computed by `reverse_non_avx` consists only of opponent
stones. -/
theorem reverse_flip_sub (b : Board) (pos : Nat) (hsb : SB pos) :
    ((b.reverse pos).player_board = b.player_board ^^^
        ((b.reverse pos).opponent_board ^^^ b.opponent_board ||| pos)) ∧
      ((b.reverse pos).opponent_board ^^^ b.opponent_board) &&& b.opponent_board =
        (b.reverse pos).opponent_board ^^^ b.opponent_board ∧
      (b.reverse pos).turn = b.turn ∧
      (b.reverse pos).legal_moves_cache = b.legal_moves_cache := by
  unfold Board.reverse
  set p := b.player_board
  set o := b.opponent_board
  set rev := revDirL 0xFEFEFEFEFEFEFEFE 1 pos p o |||
    revDirL 0xFFFFFFFFFFFFFF00 8 pos p o |||
    revDirL 0xFEFEFEFEFEFEFE00 9 pos p o |||
    revDirL 0x7F7F7F7F7F7F7F00 7 pos p o |||
    revDirR 0x7F7F7F7F7F7F7F7F 1 pos p o |||
    revDirR 0x00FFFFFFFFFFFFFF 8 pos p o |||
    revDirR 0x007F7F7F7F7F7F7F 9 pos p o |||
    revDirR 0x00FEFEFEFEFEFEFE 7 pos p o with hrev
  have hsub : rev &&& o = rev := by
    rw [hrev]
    exact or_sub (or_sub (or_sub (or_sub (or_sub (or_sub (or_sub
      (revDirL_sub _ _ _ _ _ hsb) (revDirL_sub _ _ _ _ _ hsb)) (revDirL_sub _ _ _ _ _ hsb))
      (revDirL_sub _ _ _ _ _ hsb)) (revDirR_sub _ _ _ _ _ hsb)) (revDirR_sub _ _ _ _ _ hsb))
      (revDirR_sub _ _ _ _ _ hsb)) (revDirR_sub _ _ _ _ _ hsb)
  have hoxor : (o ^^^ rev) ^^^ o = rev := by
    rw [Nat.xor_comm o rev, Nat.xor_assoc, Nat.xor_self, Nat.xor_zero]
  refine ⟨?_, ?_, rfl, rfl⟩
  · simp only
    rw [hoxor]
  · simp only
    rw [hoxor]
    exact hsub

/-- Pointwise core of the disjointness preservation of `do_move`: after
flipping `rev ⊆ o` and placing `posb` on an empty cell, the two sides of
the swapped board stay disjoint. -/
theorem reverse_disjoint (p o rev posb : Nat) (hpo : p &&& o = 0)
    (hrev : rev &&& o = rev) (hpos_p : posb &&& p = 0) (hpos_o : posb &&& o = 0) :
    (o ^^^ rev) &&& (p ^^^ (rev ||| posb)) = 0 := by
  apply Nat.eq_of_testBit_eq
  intro i
  have h1 : (p.testBit i && o.testBit i) = false := by
    have := congrArg (fun x => x.testBit i) hpo
    simpa using this
  have h2 : (rev.testBit i && o.testBit i) = rev.testBit i := by
    have := congrArg (fun x => x.testBit i) hrev
    simpa using this
  have h3 : (posb.testBit i && p.testBit i) = false := by
    have := congrArg (fun x => x.testBit i) hpos_p
    simpa using this
  have h4 : (posb.testBit i && o.testBit i) = false := by
    have := congrArg (fun x => x.testBit i) hpos_o
    simpa using this
  simp only [Nat.testBit_and, Nat.testBit_xor, Nat.testBit_or, Nat.zero_testBit]
  revert h1 h2 h3 h4
  cases p.testBit i <;> cases o.testBit i <;> cases rev.testBit i <;> cases posb.testBit i <;>
    simp

theorem xor_or_lt {p rev posb : Nat} (hp : p < 2 ^ 64) (hrev : rev < 2 ^ 64)
    (hposb : posb < 2 ^ 64) : p ^^^ (rev ||| posb) < 2 ^ 64 :=
  Nat.xor_lt_two_pow hp (Nat.or_lt_two_pow hrev hposb)

/-- The boards reachable from `Board::new()` by successful `do_move` and
`do_pass` calls. -/
inductive Reachable : Board → Prop where
  | start : Reachable Board.default
  | move (b : Board) (pos : Nat) (h : Reachable b)
      (hok : (b.do_move pos).1 = Except.ok ()) : Reachable (b.do_move pos).2
  | pass (b : Board) (h : Reachable b)
      (hok : b.do_pass.1 = Except.ok ()) : Reachable b.do_pass.2

/-- The state invariant carried by every reachable board. -/
def BoardInv (b : Board) : Prop :=
  b.player_board &&& b.opponent_board = 0 ∧ b.player_board < 2 ^ 64 ∧
    b.opponent_board < 2 ^ 64 ∧ b.legal_moves_cache = none

/-- A set legal-move bit denotes an in-range empty cell. -/
theorem legal_bit_empty (p o : Nat) (hp : p < 2 ^ 64) (ho : o < 2 ^ 64) (j : Nat)
    (hbit : (getLegalMovesNonAvx p o).testBit j = true) :
    j < 64 ∧ p.testBit j = false ∧ o.testBit j = false := by
  unfold getLegalMovesNonAvx at hbit
  simp only [Nat.testBit_and, Nat.testBit_xor, Nat.testBit_or, Bool.and_eq_true] at hbit
  obtain ⟨-, hbit⟩ := hbit
  have hmsk : msk64.testBit j = decide (j < 64) := by
    unfold msk64
    rw [Nat.testBit_two_pow_sub_one]
  rw [hmsk] at hbit
  by_cases hj : j < 64
  · simp [hj] at hbit
    exact ⟨hj, hbit⟩
  · have hpf : p.testBit j = false :=
      Nat.testBit_lt_two_pow (Nat.lt_of_lt_of_le hp (Nat.pow_le_pow_right (by norm_num) (by omega)))
    have hof : o.testBit j = false :=
      Nat.testBit_lt_two_pow (Nat.lt_of_lt_of_le ho (Nat.pow_le_pow_right (by norm_num) (by omega)))
    simp [hj, hpf, hof] at hbit

/-- Shared helper: every reachable board satisfies the state invariant. -/
theorem reachable_inv (b : Board) (h : Reachable b) : BoardInv b := by
  induction h with
  | start => exact ⟨by decide, by decide, by decide, rfl⟩
  | move b pos hb hok ih =>
    obtain ⟨hdisj, hpb, hob, hcache⟩ := ih
    have hpos : pos < 64 := by
      by_contra hge
      unfold Board.do_move at hok
      rw [if_pos (by omega)] at hok
      simp at hok
    have hglm : b.get_legal_moves =
        (getLegalMovesNonAvx b.player_board b.opponent_board,
          { b with legal_moves_cache := some (getLegalMovesNonAvx b.player_board b.opponent_board) }) := by
      unfold Board.get_legal_moves
      rw [hcache]
    have hilm : b.is_legal_move pos =
        (getLegalMovesNonAvx b.player_board b.opponent_board &&& BITS pos != 0,
          { b with legal_moves_cache := some (getLegalMovesNonAvx b.player_board b.opponent_board) }) := by
      unfold Board.is_legal_move
      rw [hglm]
    have hlegtrue : (b.is_legal_move pos).1 = true := by
      by_contra hlf
      have hlf' : (b.is_legal_move pos).1 = false := by simpa using hlf
      unfold Board.do_move at hok
      rw [if_neg (by omega)] at hok
      rw [show b.is_legal_move pos = (false, (b.is_legal_move pos).2) from by
        rw [← hlf']] at hok
      simp at hok
    have hlegne : getLegalMovesNonAvx b.player_board b.opponent_board &&& BITS pos ≠ 0 := by
      rw [hilm] at hlegtrue
      simpa using hlegtrue
    have hbit : (getLegalMovesNonAvx b.player_board b.opponent_board).testBit (63 - pos) = true := by
      by_contra hbf
      have hbf' : (getLegalMovesNonAvx b.player_board b.opponent_board).testBit (63 - pos) = false := by
        simpa using hbf
      have := and_pow_eq (getLegalMovesNonAvx b.player_board b.opponent_board) (63 - pos)
      rw [hbf'] at this
      exact hlegne (by simpa [BITS] using this)
    obtain ⟨-, hpf, hof⟩ :=
      legal_bit_empty b.player_board b.opponent_board hpb hob (63 - pos) hbit
    have hpos_p : BITS pos &&& b.player_board = 0 := by
      have := and_pow_eq b.player_board (63 - pos)
      rw [hpf] at this
      rw [BITS, Nat.and_comm]
      simpa using this
    have hpos_o : BITS pos &&& b.opponent_board = 0 := by
      have := and_pow_eq b.opponent_board (63 - pos)
      rw [hof] at this
      rw [BITS, Nat.and_comm]
      simpa using this
    have hres : (b.do_move pos).2 =
        { player_board := ((b.is_legal_move pos).2.reverse (BITS pos)).opponent_board
          opponent_board := ((b.is_legal_move pos).2.reverse (BITS pos)).player_board
          turn := ((b.is_legal_move pos).2.reverse (BITS pos)).turn.opposite
          legal_moves_cache := none } := by
      unfold Board.do_move
      rw [if_neg (by omega)]
      rw [show b.is_legal_move pos = (true, (b.is_legal_move pos).2) from by
        rw [← hlegtrue]]
      rfl
    have hsb : SB (BITS pos) := Or.inr ⟨63 - pos, rfl⟩
    obtain ⟨hpl, hrevsub, -, -⟩ := reverse_flip_sub (b.is_legal_move pos).2 (BITS pos) hsb
    have hb1p : (b.is_legal_move pos).2.player_board = b.player_board := by
      rw [hilm]
    have hb1o : (b.is_legal_move pos).2.opponent_board = b.opponent_board := by
      rw [hilm]
    rw [hb1p, hb1o] at hpl
    rw [hb1o] at hrevsub
    set rev := ((b.is_legal_move pos).2.reverse (BITS pos)).opponent_board ^^^
      b.opponent_board with hrevdef
    have hop : ((b.is_legal_move pos).2.reverse (BITS pos)).opponent_board =
        b.opponent_board ^^^ rev := by
      rw [hrevdef]
      rw [Nat.xor_comm ((b.is_legal_move pos).2.reverse (BITS pos)).opponent_board
        b.opponent_board]
      rw [← Nat.xor_assoc, Nat.xor_self, Nat.zero_xor]
    have hpp : ((b.is_legal_move pos).2.reverse (BITS pos)).player_board =
        b.player_board ^^^ (rev ||| BITS pos) := hpl
    have hrevsub' : rev &&& b.opponent_board = rev := hrevsub
    have hrevlt : rev < 2 ^ 64 := by
      rw [← hrevsub']
      exact Nat.and_lt_two_pow _ hob
    have hposblt : BITS pos < 2 ^ 64 := by
      unfold BITS
      exact Nat.pow_lt_pow_right (by norm_num) (by omega)
    refine ⟨?_, ?_, ?_, ?_⟩
    · rw [hres]
      simp only
      rw [hop, hpp]
      exact reverse_disjoint b.player_board b.opponent_board rev (BITS pos) hdisj hrevsub'
        hpos_p hpos_o
    · rw [hres]
      simp only
      rw [hop]
      exact Nat.xor_lt_two_pow hob hrevlt
    · rw [hres]
      simp only
      rw [hpp]
      exact xor_or_lt hpb hrevlt hposblt
    · rw [hres]
  | pass b hb hok ih =>
    obtain ⟨hdisj, hpb, hob, hcache⟩ := ih
    have hcond : (!b.is_pass || b.is_game_over) = false := by
      cases hcv : (!b.is_pass || b.is_game_over)
      · rfl
      · unfold Board.do_pass at hok
        rw [if_pos hcv] at hok
        simp at hok
    have hres : b.do_pass.2 =
        { player_board := b.opponent_board
          opponent_board := b.player_board
          turn := b.turn.opposite
          legal_moves_cache := none } := by
      unfold Board.do_pass
      rw [if_neg (by simp [hcond])]
    rw [hres]
    exact ⟨by simpa [Nat.and_comm] using hdisj, hob, hpb, rfl⟩

/-- Claim C6: every board reachable from the starting position by
successful `do_move` and `do_pass` operations has disjoint player and
opponent bitboards. -/
theorem c6_disjoint_invariant (b : Board) (h : Reachable b) :
    b.player_board &&& b.opponent_board = 0 :=
  (reachable_inv b h).1

/-- Witness for C6 after one concrete move from the start position. -/
theorem c6_disjoint_invariant_witness :
    ((Board.default.do_move 19).2).player_board &&&
      ((Board.default.do_move 19).2).opponent_board = 0 :=
  c6_disjoint_invariant _ (Reachable.move Board.default 19 Reachable.start (by decide))

theorem lor_eq_zero_iff (a b : Nat) : a ||| b = 0 ↔ a = 0 ∧ b = 0 := by
  constructor
  · intro h
    constructor
    · apply Nat.eq_of_testBit_eq
      intro i
      have := congrArg (fun x => x.testBit i) h
      simp only [Nat.testBit_or, Nat.zero_testBit] at this ⊢
      exact (Bool.or_eq_false_iff.mp this).1
    · apply Nat.eq_of_testBit_eq
      intro i
      have := congrArg (fun x => x.testBit i) h
      simp only [Nat.testBit_or, Nat.zero_testBit] at this ⊢
      exact (Bool.or_eq_false_iff.mp this).2
  · rintro ⟨ha, hb⟩
    rw [ha, hb, Nat.or_zero]

/-- Shared helper: `is_pass` is true exactly when `get_legal_moves`
returns the empty mask — the fast-path direction masks used inside
`is_pass` detect emptiness identically to the full legal-move
computation. -/
theorem is_pass_iff_empty_mask (b : Board)
    (hp : b.player_board < 2 ^ 64) (ho : b.opponent_board < 2 ^ 64)
    (hcache : b.legal_moves_cache = none ∨
      b.legal_moves_cache = some (getLegalMovesNonAvx b.player_board b.opponent_board)) :
    (b.is_pass = true ↔ b.get_legal_moves.1 = 0) := by
  rcases hcache with hc | hc
  · have h1 : b.get_legal_moves.1 = getLegalMovesNonAvx b.player_board b.opponent_board := by
      unfold Board.get_legal_moves
      rw [hc]
    rw [h1]
    have h2 : b.is_pass =
        (if getLegalPart (0x7E7E7E7E7E7E7E7E &&& b.opponent_board) b.player_board 1 &&&
            (msk64 ^^^ (b.player_board ||| b.opponent_board)) ≠ 0 then false
        else if getLegalPart (0x00FFFFFFFFFFFF00 &&& b.opponent_board) b.player_board 8 &&&
            (msk64 ^^^ (b.player_board ||| b.opponent_board)) ≠ 0 then false
        else if getLegalPart (0x007E7E7E7E7E7E00 &&& b.opponent_board) b.player_board 9 &&&
            (msk64 ^^^ (b.player_board ||| b.opponent_board)) ≠ 0 then false
        else if getLegalPart (0x007E7E7E7E7E7E00 &&& b.opponent_board) b.player_board 7 &&&
            (msk64 ^^^ (b.player_board ||| b.opponent_board)) ≠ 0 then false
        else true) := by
      unfold Board.is_pass
      rw [hc]
    have hexp : getLegalMovesNonAvx b.player_board b.opponent_board =
        (getLegalPart (0x7E7E7E7E7E7E7E7E &&& b.opponent_board) b.player_board 1 &&&
          (msk64 ^^^ (b.player_board ||| b.opponent_board))) |||
        (getLegalPart (0x00FFFFFFFFFFFF00 &&& b.opponent_board) b.player_board 8 &&&
          (msk64 ^^^ (b.player_board ||| b.opponent_board))) |||
        (getLegalPart (0x007E7E7E7E7E7E00 &&& b.opponent_board) b.player_board 9 &&&
          (msk64 ^^^ (b.player_board ||| b.opponent_board))) |||
        (getLegalPart (0x007E7E7E7E7E7E00 &&& b.opponent_board) b.player_board 7 &&&
          (msk64 ^^^ (b.player_board ||| b.opponent_board))) := by
      unfold getLegalMovesNonAvx
      simp only
      rw [Nat.and_comm 0x7E7E7E7E7E7E7E7E b.opponent_board]
      rw [getLegalPart_vert b.player_board b.opponent_board hp ho,
        getLegalPart_diag9 b.player_board b.opponent_board hp ho,
        getLegalPart_diag7 b.player_board b.opponent_board hp ho]
      rw [Nat.and_comm b.opponent_board 0x7E7E7E7E7E7E7E7E,
        Nat.and_comm b.opponent_board 0x00FFFFFFFFFFFF00,
        Nat.and_comm b.opponent_board 0x007E7E7E7E7E7E00]
      rw [Nat.and_distrib_right, Nat.and_distrib_right, Nat.and_distrib_right]
    rw [h2, hexp]
    rw [lor_eq_zero_iff, lor_eq_zero_iff, lor_eq_zero_iff]
    by_cases h3 : getLegalPart (0x7E7E7E7E7E7E7E7E &&& b.opponent_board) b.player_board 1 &&&
        (msk64 ^^^ (b.player_board ||| b.opponent_board)) = 0
    · by_cases h4 : getLegalPart (0x00FFFFFFFFFFFF00 &&& b.opponent_board) b.player_board 8 &&&
          (msk64 ^^^ (b.player_board ||| b.opponent_board)) = 0
      · by_cases h5 : getLegalPart (0x007E7E7E7E7E7E00 &&& b.opponent_board) b.player_board 9 &&&
            (msk64 ^^^ (b.player_board ||| b.opponent_board)) = 0
        · by_cases h6 : getLegalPart (0x007E7E7E7E7E7E00 &&& b.opponent_board) b.player_board 7 &&&
              (msk64 ^^^ (b.player_board ||| b.opponent_board)) = 0
          · simp [h3, h4, h5, h6]
          · simp [h3, h4, h5, h6]
        · simp [h3, h4, h5]
      · simp [h3, h4]
    · simp [h3]
  · have h1 : b.get_legal_moves.1 = getLegalMovesNonAvx b.player_board b.opponent_board := by
      unfold Board.get_legal_moves
      rw [hc]
    have h2 : b.is_pass =
        (getLegalMovesNonAvx b.player_board b.opponent_board == 0) := by
      unfold Board.is_pass
      rw [hc]
    rw [h1, h2]
    exact ⟨fun h => by simpa using h, fun h => by simp [h]⟩

/-- Claim C7: `is_pass` is true exactly when `get_legal_moves` returns
the empty mask — in particular the fast-path direction masks used inside
`is_pass` detect emptiness identically to the full legal-move
computation. -/
theorem c7_is_pass_iff_no_legal (b : Board)
    (hp : b.player_board < 2 ^ 64) (ho : b.opponent_board < 2 ^ 64)
    (hcache : b.legal_moves_cache = none ∨
      b.legal_moves_cache = some (getLegalMovesNonAvx b.player_board b.opponent_board)) :
    (b.is_pass = true ↔ b.get_legal_moves.1 = 0) :=
  is_pass_iff_empty_mask b hp ho hcache

/-- Witness for C7 at the start position, where the mover has moves. -/
theorem c7_is_pass_iff_no_legal_witness :
    (Board.default.is_pass = true ↔ Board.default.get_legal_moves.1 = 0) ∧
      Board.default.is_pass = false :=
  ⟨c7_is_pass_iff_no_legal Board.default (by decide) (by decide) (Or.inl rfl), by decide⟩

/-! ### The text codec (`get_board_line` / `set_board_str`) -/

/-- The cell loop of `get_board_line` (board.rs lines 220-227), iterating
over the given cell indices (`BITS.iter()` is cells 0..63 in order). -/
def getBoardLineGo (p o : Nat) (pc oc : Char) : List Nat → Except BoardError (List Char)
  | [] => Except.ok []
  | i :: rest =>
    if p &&& BITS i ≠ 0 then
      if o &&& BITS i ≠ 0 then Except.error BoardError.InvalidState
      else (getBoardLineGo p o pc oc rest).map (fun cs => pc :: cs)
    else if o &&& BITS i ≠ 0 then (getBoardLineGo p o pc oc rest).map (fun cs => oc :: cs)
    else (getBoardLineGo p o pc oc rest).map (fun cs => '-' :: cs)

/-- `Board::get_board_line` (board.rs lines 210-229). -/
def Board.get_board_line (b : Board) : Except BoardError (List Char) :=
  let player_char := match b.turn with | Turn.Black => 'X' | Turn.White => 'O'
  let opponent_char := match b.turn with | Turn.Black => 'O' | Turn.White => 'X'
  getBoardLineGo b.player_board b.opponent_board player_char opponent_char (List.range 64)

theorem and_BITS_ne (x i : Nat) : (x &&& BITS i ≠ 0) ↔ x.testBit (63 - i) = true := by
  rw [BITS, and_pow_eq]
  by_cases h : x.testBit (63 - i)
  · simp [h, (Nat.two_pow_pos (63 - i)).ne']
  · simp [h]

theorem and_low_zero_testBit {x n j : Nat} (h : x &&& (2 ^ n - 1) = 0) (hj : j < n) :
    x.testBit j = false := by
  have := congrArg (fun y => y.testBit j) h
  simp only [Nat.testBit_and, Nat.testBit_two_pow_sub_one, Nat.zero_testBit] at this
  simpa [hj] using this

theorem and_low_mono {x n m : Nat} (hmn : m ≤ n) (h : x &&& (2 ^ n - 1) = 0) :
    x &&& (2 ^ m - 1) = 0 := by
  apply Nat.eq_of_testBit_eq
  intro j
  simp only [Nat.testBit_and, Nat.testBit_two_pow_sub_one, Nat.zero_testBit]
  by_cases hj : j < m
  · have hb := and_low_zero_testBit h (show j < n by omega)
    simp [hb, hj]
  · simp [hj]

theorem pow_and_low (m : Nat) : 2 ^ m &&& (2 ^ m - 1) = 0 := by
  apply Nat.eq_of_testBit_eq
  intro j
  simp only [Nat.testBit_and, Nat.testBit_two_pow, Nat.testBit_two_pow_sub_one,
    Nat.zero_testBit]
  by_cases hj : m = j
  · simp [hj]
  · simp [hj]

theorem low_mask_succ (x n : Nat) :
    x &&& (2 ^ (n + 1) - 1) = (if x.testBit n then 2 ^ n else 0) ||| (x &&& (2 ^ n - 1)) := by
  apply Nat.eq_of_testBit_eq
  intro j
  by_cases h : x.testBit n
  · simp only [h, if_true, Nat.testBit_or, Nat.testBit_and, Nat.testBit_two_pow,
      Nat.testBit_two_pow_sub_one]
    by_cases hj : n = j
    · subst hj
      simp [h]
    · by_cases hj2 : j < n
      · simp [hj, show j < n + 1 by omega, hj2]
      · simp [hj, show ¬(j < n + 1) by omega, show ¬(j < n) by omega]
  · simp only [h, if_false, Nat.zero_or, Nat.testBit_and, Nat.testBit_two_pow_sub_one]
    by_cases hj : n = j
    · subst hj
      simp [h]
    · by_cases hj2 : j < n
      · simp [show j < n + 1 by omega, hj2]
      · simp [show ¬(j < n + 1) by omega, hj2]

theorem disjoint_testBit {p o : Nat} (hdisj : p &&& o = 0) (j : Nat)
    (hp : p.testBit j = true) : o.testBit j = false := by
  have := congrArg (fun x => x.testBit j) hdisj
  simp only [Nat.testBit_and, Nat.zero_testBit] at this
  rcases Bool.and_eq_false_iff.mp this with h | h
  · rw [hp] at h; exact absurd h (by simp)
  · exact h

/-- Encode-then-decode over the cell suffix `k ..< 64`: decoding the
encoded characters accumulates exactly the low `n` bits of each mask. -/
theorem enc_dec (p o : Nat) (hdisj : p &&& o = 0) :
    ∀ n k accB accW, k + n = 64 →
      ∃ cs, getBoardLineGo p o 'X' 'O' (List.range' k n) = Except.ok cs ∧
        setBoardStrGo cs k accB accW =
          StrParse.okb (accB ||| (p &&& (2 ^ n - 1))) (accW ||| (o &&& (2 ^ n - 1))) := by
  intro n
  induction n with
  | zero =>
    intro k accB accW _
    exact ⟨[], by simp [getBoardLineGo], by simp [setBoardStrGo]⟩
  | succ n ih =>
    intro k accB accW hk
    have hkn : 63 - k = n := by omega
    have hk64 : k < 64 := by omega
    rw [List.range'_succ]
    by_cases hp : p.testBit n = true
    · have ho : o.testBit n = false := disjoint_testBit hdisj n hp
      obtain ⟨cs', hcs', hdec⟩ := ih (k + 1) (accB ||| BITS k) accW (by omega)
      refine ⟨'X' :: cs', ?_, ?_⟩
      · simp only [getBoardLineGo]
        rw [if_pos ((and_BITS_ne p k).mpr (by rw [hkn]; exact hp))]
        rw [if_neg (by rw [and_BITS_ne, hkn, ho]; simp)]
        rw [hcs']
        rfl
      · rw [show setBoardStrGo ('X' :: cs') k accB accW =
          setBoardStrGo cs' (k + 1) (accB ||| BITS k) accW by
            simp [setBoardStrGo, hk64]]
        rw [hdec]
        rw [low_mask_succ p n, low_mask_succ o n, hp, ho]
        rw [if_pos rfl, if_neg (by simp)]
        rw [Nat.zero_or, show BITS k = 2 ^ n by rw [BITS, hkn], Nat.or_assoc]
    · have hp' : p.testBit n = false := by simpa using hp
      by_cases ho : o.testBit n = true
      · obtain ⟨cs', hcs', hdec⟩ := ih (k + 1) accB (accW ||| BITS k) (by omega)
        refine ⟨'O' :: cs', ?_, ?_⟩
        · simp only [getBoardLineGo]
          rw [if_neg (by rw [and_BITS_ne, hkn, hp']; simp)]
          rw [if_pos ((and_BITS_ne o k).mpr (by rw [hkn]; exact ho))]
          rw [hcs']
          rfl
        · rw [show setBoardStrGo ('O' :: cs') k accB accW =
            setBoardStrGo cs' (k + 1) accB (accW ||| BITS k) by
              simp [setBoardStrGo, hk64]]
          rw [hdec]
          rw [low_mask_succ p n, low_mask_succ o n, hp', ho]
          rw [if_neg (by simp), if_pos rfl]
          rw [Nat.zero_or, show BITS k = 2 ^ n by rw [BITS, hkn], Nat.or_assoc]
      · have ho' : o.testBit n = false := by simpa using ho
        obtain ⟨cs', hcs', hdec⟩ := ih (k + 1) accB accW (by omega)
        refine ⟨'-' :: cs', ?_, ?_⟩
        · simp only [getBoardLineGo]
          rw [if_neg (by rw [and_BITS_ne, hkn, hp']; simp)]
          rw [if_neg (by rw [and_BITS_ne, hkn, ho']; simp)]
          rw [hcs']
          rfl
        · rw [show setBoardStrGo ('-' :: cs') k accB accW =
            setBoardStrGo cs' (k + 1) accB accW by simp [setBoardStrGo]]
          rw [hdec]
          rw [low_mask_succ p n, low_mask_succ o n, hp', ho']
          simp

/-- The bitboard contributed by the occurrences of one character in a
decoded string starting at cell `k`. -/
def bitsOf : List Char → Nat → Char → Nat
  | [], _, _ => 0
  | c :: rest, k, ch => (if c = ch then BITS k else 0) ||| bitsOf rest (k + 1) ch

theorem bitsOf_lt (ch : Char) : ∀ (chars : List Char) (k : Nat),
    k + chars.length ≤ 64 → bitsOf chars k ch < 2 ^ (64 - k) := by
  intro chars
  induction chars with
  | nil => intro k _; simp [bitsOf]
  | cons c rest ih =>
    intro k hk
    have hk63 : k ≤ 63 := by simp at hk; omega
    simp only [bitsOf]
    apply Nat.or_lt_two_pow
    · by_cases hc : c = ch
      · rw [if_pos hc, BITS]
        exact Nat.pow_lt_pow_right (by norm_num) (by omega)
      · rw [if_neg hc]; positivity
    · exact Nat.lt_of_lt_of_le (ih (k + 1) (by simp at hk; omega))
        (Nat.pow_le_pow_right (by norm_num) (by omega))

theorem bitsOf_high_bit (ch : Char) (chars : List Char) (k j : Nat)
    (hk : k + chars.length ≤ 64) (hj : 64 - k ≤ j) :
    (bitsOf chars k ch).testBit j = false :=
  Nat.testBit_lt_two_pow
    (Nat.lt_of_lt_of_le (bitsOf_lt ch chars k hk) (Nat.pow_le_pow_right (by norm_num) hj))

theorem bitsOf_disjoint : ∀ (chars : List Char) (k : Nat), k + chars.length ≤ 64 →
    bitsOf chars k 'X' &&& bitsOf chars k 'O' = 0 := by
  intro chars
  induction chars with
  | nil => intro k _; simp [bitsOf]
  | cons c rest ih =>
    intro k hk
    have hrest : (k + 1) + rest.length ≤ 64 := by simp at hk; omega
    simp only [bitsOf]
    rw [Nat.and_distrib_right, Nat.and_or_distrib_left, Nat.and_or_distrib_left]
    have hhead : (if c = 'X' then BITS k else 0) &&& (if c = 'O' then BITS k else 0) = 0 := by
      by_cases hcx : c = 'X'
      · subst hcx
        simp [show ¬(('X' : Char) = 'O') by decide]
      · simp [hcx]
    have hcross1 : (if c = 'X' then BITS k else 0) &&& bitsOf rest (k + 1) 'O' = 0 := by
      by_cases hcx : c = 'X'
      · rw [if_pos hcx, BITS, Nat.and_comm, and_pow_eq]
        rw [if_neg (by rw [bitsOf_high_bit 'O' rest (k + 1) (63 - k) hrest (by omega)]; simp)]
      · rw [if_neg hcx]; simp
    have hcross2 : bitsOf rest (k + 1) 'X' &&& (if c = 'O' then BITS k else 0) = 0 := by
      by_cases hcx : c = 'O'
      · rw [if_pos hcx, BITS, and_pow_eq]
        rw [if_neg (by rw [bitsOf_high_bit 'X' rest (k + 1) (63 - k) hrest (by omega)]; simp)]
      · rw [if_neg hcx]; simp
    rw [hhead, hcross1, hcross2, ih (k + 1) hrest]
    simp

/-- Decoding valid characters accumulates exactly the `X` bits into the
black board and the `O` bits into the white board. -/
theorem decode_bits : ∀ (chars : List Char) (k accB accW : Nat),
    k + chars.length ≤ 64 → (∀ c ∈ chars, validChar c) →
    setBoardStrGo chars k accB accW =
      StrParse.okb (accB ||| bitsOf chars k 'X') (accW ||| bitsOf chars k 'O') := by
  intro chars
  induction chars with
  | nil => intro k accB accW _ _; simp [setBoardStrGo, bitsOf]
  | cons c rest ih =>
    intro k accB accW hlen hvalid
    have hk64 : k < 64 := by simp at hlen; omega
    have hrestlen : (k + 1) + rest.length ≤ 64 := by simp at hlen; omega
    have hrestvalid : ∀ x ∈ rest, validChar x := fun x hx => hvalid x (by simp [hx])
    rcases hvalid c (by simp) with hc | hc | hc
    · rw [show setBoardStrGo (c :: rest) k accB accW =
        setBoardStrGo rest (k + 1) (accB ||| BITS k) accW by simp [setBoardStrGo, hc, hk64]]
      rw [ih (k + 1) _ _ hrestlen hrestvalid]
      simp [bitsOf, hc, show ¬(('X' : Char) = 'O') by decide, Nat.or_assoc]
    · rw [show setBoardStrGo (c :: rest) k accB accW =
        setBoardStrGo rest (k + 1) accB (accW ||| BITS k) by simp [setBoardStrGo, hc, hk64]]
      rw [ih (k + 1) _ _ hrestlen hrestvalid]
      simp [bitsOf, hc, show ¬(('O' : Char) = 'X') by decide, Nat.or_assoc]
    · rw [show setBoardStrGo (c :: rest) k accB accW =
        setBoardStrGo rest (k + 1) accB accW by simp [setBoardStrGo, hc]]
      rw [ih (k + 1) _ _ hrestlen hrestvalid]
      simp [bitsOf, hc, show ¬(('-' : Char) = 'X') by decide, show ¬(('-' : Char) = 'O') by decide]

theorem or_and_low_zero {a b m : Nat} (ha : a &&& m = 0) (hb : b &&& m = 0) :
    (a ||| b) &&& m = 0 := by
  rw [Nat.and_distrib_right, ha, hb, Nat.or_zero]

/-- Decode-then-encode over the cell suffix `k ..< 64`: the board decoded
from a valid character suffix encodes back to exactly those characters. -/
theorem enc_of_decoded (B W : Nat) : ∀ (chars : List Char) (n k accB accW : Nat),
    k + n = 64 → chars.length = n → (∀ c ∈ chars, validChar c) →
    B = accB ||| bitsOf chars k 'X' → W = accW ||| bitsOf chars k 'O' →
    accB &&& (2 ^ n - 1) = 0 → accW &&& (2 ^ n - 1) = 0 →
    getBoardLineGo B W 'X' 'O' (List.range' k n) = Except.ok chars := by
  intro chars
  induction chars with
  | nil =>
    intro n k accB accW hk hlen _ _ _ _ _
    rw [← hlen]
    simp [getBoardLineGo]
  | cons c rest ih =>
    intro n k accB accW hk hlen hvalid hB hW haccB haccW
    have hn : n = rest.length + 1 := by simpa using hlen.symm
    subst hn
    have hk63 : k ≤ 63 := by omega
    have hkn : 63 - k = rest.length := by omega
    have hrestlen : (k + 1) + rest.length ≤ 64 := by omega
    have haccBbit : accB.testBit (63 - k) = false :=
      and_low_zero_testBit haccB (by omega)
    have haccWbit : accW.testBit (63 - k) = false :=
      and_low_zero_testBit haccW (by omega)
    have hrXbit : (bitsOf rest (k + 1) 'X').testBit (63 - k) = false :=
      bitsOf_high_bit 'X' rest (k + 1) (63 - k) hrestlen (by omega)
    have hrObit : (bitsOf rest (k + 1) 'O').testBit (63 - k) = false :=
      bitsOf_high_bit 'O' rest (k + 1) (63 - k) hrestlen (by omega)
    have hheadbit : (BITS k).testBit (63 - k) = true := by
      rw [BITS]
      exact Nat.testBit_two_pow_self
    have haccBlow : accB &&& (2 ^ rest.length - 1) = 0 := and_low_mono (by omega) haccB
    have haccWlow : accW &&& (2 ^ rest.length - 1) = 0 := and_low_mono (by omega) haccW
    have hheadlow : BITS k &&& (2 ^ rest.length - 1) = 0 := by
      rw [BITS, hkn]
      exact pow_and_low rest.length
    have hXO : ¬(('X' : Char) = 'O') := by decide
    have hOX : ¬(('O' : Char) = 'X') := by decide
    have hDX : ¬(('-' : Char) = 'X') := by decide
    have hDO : ¬(('-' : Char) = 'O') := by decide
    rw [List.range'_succ]
    rcases hvalid c (by simp) with hc | hc | hc
    · have hBbit : B.testBit (63 - k) = true := by
        rw [hB]
        simp [bitsOf, hc, haccBbit, hheadbit]
      have hWbit : W.testBit (63 - k) = false := by
        rw [hW]
        simp [bitsOf, hc, haccWbit, hrObit, hXO]
      simp only [getBoardLineGo]
      rw [if_pos ((and_BITS_ne B k).mpr hBbit)]
      rw [if_neg (by rw [and_BITS_ne, hWbit]; simp)]
      rw [ih rest.length (k + 1) (accB ||| BITS k) accW (by omega) rfl
        (fun x hx => hvalid x (by simp [hx]))
        (by rw [hB]; simp [bitsOf, hc, Nat.or_assoc])
        (by rw [hW]; simp [bitsOf, hc, hXO])
        (or_and_low_zero haccBlow hheadlow) haccWlow]
      rw [hc]
      rfl
    · have hBbit : B.testBit (63 - k) = false := by
        rw [hB]
        simp [bitsOf, hc, haccBbit, hrXbit, hOX]
      have hWbit : W.testBit (63 - k) = true := by
        rw [hW]
        simp [bitsOf, hc, haccWbit, hheadbit]
      simp only [getBoardLineGo]
      rw [if_neg (by rw [and_BITS_ne, hBbit]; simp)]
      rw [if_pos ((and_BITS_ne W k).mpr hWbit)]
      rw [ih rest.length (k + 1) accB (accW ||| BITS k) (by omega) rfl
        (fun x hx => hvalid x (by simp [hx]))
        (by rw [hB]; simp [bitsOf, hc, hOX])
        (by rw [hW]; simp [bitsOf, hc, Nat.or_assoc])
        haccBlow (or_and_low_zero haccWlow hheadlow)]
      rw [hc]
      rfl
    · have hBbit : B.testBit (63 - k) = false := by
        rw [hB]
        simp [bitsOf, hc, haccBbit, hrXbit, hDX]
      have hWbit : W.testBit (63 - k) = false := by
        rw [hW]
        simp [bitsOf, hc, haccWbit, hrObit, hDO]
      simp only [getBoardLineGo]
      rw [if_neg (by rw [and_BITS_ne, hBbit]; simp)]
      rw [if_neg (by rw [and_BITS_ne, hWbit]; simp)]
      rw [ih rest.length (k + 1) accB accW (by omega) rfl
        (fun x hx => hvalid x (by simp [hx]))
        (by rw [hB]; simp [bitsOf, hc, hDX])
        (by rw [hW]; simp [bitsOf, hc, hDO])
        haccBlow haccWlow]
      rw [hc]
      rfl

/-- Encoding with swapped mover characters equals encoding the swapped
boards, for disjoint bitboards. -/
theorem getBoardLineGo_swap (p o : Nat) (hdisj : p &&& o = 0) :
    ∀ l, getBoardLineGo p o 'O' 'X' l = getBoardLineGo o p 'X' 'O' l := by
  intro l
  induction l with
  | nil => rfl
  | cons i rest ih =>
    simp only [getBoardLineGo]
    by_cases hp : p &&& BITS i ≠ 0
    · have hpt := (and_BITS_ne p i).mp hp
      have hot : o.testBit (63 - i) = false := disjoint_testBit hdisj _ hpt
      have ho : ¬(o &&& BITS i ≠ 0) := by rw [and_BITS_ne, hot]; simp
      rw [if_pos hp, if_neg ho, if_neg ho, if_pos hp, ih]
    · rw [if_neg hp]
      by_cases ho : o &&& BITS i ≠ 0
      · rw [if_pos ho, if_pos ho, if_neg hp, ih]
      · rw [if_neg ho, if_neg ho, if_neg hp, ih]

/-- Claim C5: round trip of the text codec.  First conjunct: for every
reachable board `b`, decoding `get_board_line(b)` with `b`'s side to move
yields a board equal to `b`.  Second conjunct: for every well-formed
64-character text over the three symbols and every side to move,
`get_board_line` after `set_board_str` returns exactly the original
text. -/
theorem c5_codec_round_trip :
    (∀ b : Board, Reachable b →
      ∃ t, b.get_board_line = Except.ok t ∧ b.set_board_str t b.turn = SetRes.ok b) ∧
    (∀ (t : List Char) (turn : Turn) (b0 : Board), t.length = 64 →
      (∀ c ∈ t, validChar c) →
      ∃ b', b0.set_board_str t turn = SetRes.ok b' ∧ b'.get_board_line = Except.ok t) := by
  constructor
  · intro b hreach
    obtain ⟨hdisj, hpb, hob, hcache⟩ := reachable_inv b hreach
    have hfull : ∀ x : Nat, x < 2 ^ 64 → x &&& (2 ^ 64 - 1) = x := by
      intro x hx
      have := and_msk64_self hx
      unfold msk64 at this
      exact this
    cases hturn : b.turn
    · obtain ⟨cs, hcs, hdec⟩ :=
        enc_dec b.player_board b.opponent_board hdisj 64 0 0 0 rfl
      refine ⟨cs, ?_, ?_⟩
      · unfold Board.get_board_line
        rw [hturn, List.range_eq_range']
        exact hcs
      · unfold Board.set_board_str
        rw [hdec, Nat.zero_or, Nat.zero_or, hfull _ hpb, hfull _ hob]
        show SetRes.ok (b.set_board b.player_board b.opponent_board Turn.Black) = SetRes.ok b
        unfold Board.set_board
        cases b with
        | mk bp bo bt bc =>
          simp only at hturn hcache ⊢
          rw [hturn, hcache]
    · obtain ⟨cs, hcs, hdec⟩ :=
        enc_dec b.opponent_board b.player_board (by rw [Nat.and_comm]; exact hdisj) 64 0 0 0 rfl
      refine ⟨cs, ?_, ?_⟩
      · unfold Board.get_board_line
        rw [hturn, List.range_eq_range']
        rw [getBoardLineGo_swap b.player_board b.opponent_board hdisj]
        exact hcs
      · unfold Board.set_board_str
        rw [hdec, Nat.zero_or, Nat.zero_or, hfull _ hob, hfull _ hpb]
        show SetRes.ok (b.set_board b.player_board b.opponent_board Turn.White) = SetRes.ok b
        unfold Board.set_board
        cases b with
        | mk bp bo bt bc =>
          simp only at hturn hcache ⊢
          rw [hturn, hcache]
  · intro t turn b0 hlen hvalid
    have hdec := decode_bits t 0 0 0 (by omega) hvalid
    rw [Nat.zero_or, Nat.zero_or] at hdec
    have hdisjXO : bitsOf t 0 'X' &&& bitsOf t 0 'O' = 0 := bitsOf_disjoint t 0 (by omega)
    cases turn
    · refine ⟨Board.mk (bitsOf t 0 'X') (bitsOf t 0 'O') Turn.Black none, ?_, ?_⟩
      · unfold Board.set_board_str
        rw [hdec]
        rfl
      · unfold Board.get_board_line
        simp only
        rw [List.range_eq_range']
        exact enc_of_decoded (bitsOf t 0 'X') (bitsOf t 0 'O') t 64 0 0 0 rfl hlen hvalid
          (by rw [Nat.zero_or]) (by rw [Nat.zero_or]) (by simp) (by simp)
    · refine ⟨Board.mk (bitsOf t 0 'O') (bitsOf t 0 'X') Turn.White none, ?_, ?_⟩
      · unfold Board.set_board_str
        rw [hdec]
        rfl
      · unfold Board.get_board_line
        simp only
        rw [List.range_eq_range']
        rw [getBoardLineGo_swap (bitsOf t 0 'O') (bitsOf t 0 'X')
          (by rw [Nat.and_comm]; exact hdisjXO)]
        exact enc_of_decoded (bitsOf t 0 'X') (bitsOf t 0 'O') t 64 0 0 0 rfl hlen hvalid
          (by rw [Nat.zero_or]) (by rw [Nat.zero_or]) (by simp) (by simp)

/-- Witness for C5: the start position round-trips, and the all-empty
64-character text round-trips. -/
theorem c5_codec_round_trip_witness :
    (∃ t, Board.default.get_board_line = Except.ok t ∧
      Board.default.set_board_str t Board.default.turn = SetRes.ok Board.default) ∧
    (∃ b', Board.default.set_board_str (List.replicate 64 '-') Turn.Black = SetRes.ok b' ∧
      b'.get_board_line = Except.ok (List.replicate 64 '-')) :=
  ⟨c5_codec_round_trip.1 Board.default Reachable.start,
    c5_codec_round_trip.2 (List.replicate 64 '-') Turn.Black Board.default (by decide)
      (by decide)⟩

/-! ### Evaluators (`search/evaluator.rs`): `MatrixEvaluator` against
`BitMatrixEvaluator` -/

/-- `Board::get_board_vec_black` cell loop (board.rs lines 238-250): the
player's stones are labelled `Color::Black` and the opponent's
`Color::White`, irrespective of the turn; a cell occupied by both sides
aborts with `InvalidState`. -/
def getBoardVecGo (p o : Nat) : List Nat → Except BoardError (List Color)
  | [] => Except.ok []
  | i :: rest =>
    if p &&& BITS i ≠ 0 then
      if o &&& BITS i ≠ 0 then Except.error BoardError.InvalidState
      else (getBoardVecGo p o rest).map (fun v => Color.Black :: v)
    else
      if o &&& BITS i ≠ 0 then (getBoardVecGo p o rest).map (fun v => Color.White :: v)
      else (getBoardVecGo p o rest).map (fun v => Color.Empty :: v)

/-- `Board::get_board_vec_black` (board.rs lines 238-250). -/
def Board.get_board_vec_black (b : Board) : Except BoardError (List Color) :=
  getBoardVecGo b.player_board b.opponent_board (List.range 64)

/-- `MatrixEvaluator::evaluate` (evaluator.rs lines 114-127), with the
`i32` sum modelled as an unbounded integer.  `Except.error` models the
panic of the `.unwrap()` on an invalid board state. -/
def matrixEvaluate (m : Nat → Nat → Int) (b : Board) : Except BoardError Int :=
  (b.get_board_vec_black).map (fun v =>
    v.enum.foldl (fun score ic =>
      if ic.2 = Color.Black then score + m (ic.1 / 8) (ic.1 % 8)
      else if ic.2 = Color.White then score - m (ic.1 / 8) (ic.1 % 8)
      else score) 0)

/-- Insertion into a `key`-sorted list, placing the new element before
every element of equal key.  Folding it over a list from the right is a
stable sort, matching the stability guarantee of Rust's
`slice::sort_by_key`. -/
def insertByKey {α : Type} (key : α → Int) (x : α) : List α → List α
  | [] => [x]
  | y :: ys => if key x ≤ key y then x :: y :: ys else y :: insertByKey key x ys

/-- Stable sort by an integer key (`sort_by_key` of evaluator.rs line
167). -/
def sortByKey {α : Type} (key : α → Int) : List α → List α
  | [] => []
  | x :: xs => insertByKey key x (sortByKey key xs)

/-- `BitMatrixEvaluator` (evaluator.rs lines 130-135), the `[_; N]`
arrays as lists. -/
structure BitMatrixEvaluator where
  weights : List Int
  masks : List Nat
  positive_start : Nat

/-- The `positive_start` scan of `BitMatrixEvaluator::new` (evaluator.rs
lines 177-183): index of the first strictly positive weight, left at 0
when no weight is positive. -/
def positiveStartGo : List Int → Nat → Nat
  | [], _ => 0
  | w :: rest, i => if 0 < w then i else positiveStartGo rest (i + 1)

/-- `BitMatrixEvaluator::new` (evaluator.rs lines 161-192): zip masks
with weights, stable-sort the pairs by weight, unzip, then run the
`positive_start` scan over the sorted weights. -/
def bitMatrixNew (weights : List Int) (masks : List Nat) : BitMatrixEvaluator :=
  let sorted := sortByKey (fun mw => mw.2) (masks.zip weights)
  { weights := sorted.map Prod.snd
    masks := sorted.map Prod.fst
    positive_start := positiveStartGo (sorted.map Prod.snd) 0 }

/-- `BitMatrixEvaluator::evaluate` (evaluator.rs lines 195-215).  The two
index loops (over `0..positive_start` and `positive_start..N`) are fused
into one fold over `0..N` keeping the `i < positive_start` test; the
inner `for _ in 0..k { score -= d }` (resp. `+=`) contributes
`k.toNat * d` subtracted (resp. added), which is 0 whenever `k ≤ 0`,
exactly like the empty Rust range. -/
def BitMatrixEvaluator.evaluate (ev : BitMatrixEvaluator) (b : Board) : Int :=
  (List.range ev.weights.length).foldl (fun score i =>
    let player_count : Int := countOnes (b.player_board &&& ev.masks.getD i 0)
    let opponent_count : Int := countOnes (b.opponent_board &&& ev.masks.getD i 0)
    if i < ev.positive_start then
      score - ((-(ev.weights.getD i 0)).toNat : Int) * (player_count - opponent_count)
    else
      score + ((ev.weights.getD i 0).toNat : Int) * (player_count - opponent_count)) 0

/-- The ten orbit masks of `MatrixEvaluator::to_bit_matrix_evaluator`
(evaluator.rs lines 85-96). -/
def orbitMasks : List Nat :=
  [0x0000001818000000, 0x0000182424180000, 0x0000240000240000, 0x0018004242001800,
   0x0024420000422400, 0x0042000000004200, 0x1800008181000018, 0x2400810000810024,
   0x4281000000008142, 0x8100000000000081]

/-- The ten orbit representative weights of `to_bit_matrix_evaluator`
(evaluator.rs lines 97-108). -/
def orbitWeights (m : Nat → Nat → Int) : List Int :=
  [m 3 3, m 3 2, m 2 2, m 3 1, m 2 1, m 1 1, m 3 0, m 2 0, m 1 0, m 0 0]

/-- `MatrixEvaluator::to_bit_matrix_evaluator` (evaluator.rs lines
84-111). -/
def toBitMatrixEvaluator (m : Nat → Nat → Int) : BitMatrixEvaluator :=
  bitMatrixNew (orbitWeights m) orbitMasks

theorem insertByKey_perm {α : Type} (key : α → Int) (x : α) :
    ∀ l : List α, (insertByKey key x l).Perm (x :: l) := by
  intro l
  induction l with
  | nil => simp [insertByKey]
  | cons y ys ih =>
    unfold insertByKey
    by_cases h : key x ≤ key y
    · rw [if_pos h]
    · rw [if_neg h]
      exact (List.Perm.cons y ih).trans (List.Perm.swap x y ys)

theorem sortByKey_perm {α : Type} (key : α → Int) :
    ∀ l : List α, (sortByKey key l).Perm l := by
  intro l
  induction l with
  | nil => simp [sortByKey]
  | cons x xs ih =>
    unfold sortByKey
    exact (insertByKey_perm key x (sortByKey key xs)).trans (List.Perm.cons x ih)

theorem insertByKey_sorted {α : Type} (key : α → Int) (x : α) :
    ∀ l : List α, l.Pairwise (fun a b => key a ≤ key b) →
      (insertByKey key x l).Pairwise (fun a b => key a ≤ key b) := by
  intro l
  induction l with
  | nil => intro _; simp [insertByKey]
  | cons y ys ih =>
    intro h
    rw [List.pairwise_cons] at h
    obtain ⟨hy, hys⟩ := h
    unfold insertByKey
    by_cases hxy : key x ≤ key y
    · rw [if_pos hxy]
      refine List.Pairwise.cons ?_ (List.Pairwise.cons hy hys)
      intro z hz
      rcases List.mem_cons.mp hz with hz | hz
      · rw [hz]; exact hxy
      · exact le_trans hxy (hy z hz)
    · rw [if_neg hxy]
      refine List.Pairwise.cons ?_ (ih hys)
      intro z hz
      have hz2 : z ∈ x :: ys := (insertByKey_perm key x ys).mem_iff.mp hz
      rcases List.mem_cons.mp hz2 with hz2 | hz2
      · rw [hz2]; exact le_of_lt (lt_of_not_le hxy)
      · exact hy z hz2

theorem sortByKey_sorted {α : Type} (key : α → Int) :
    ∀ l : List α, (sortByKey key l).Pairwise (fun a b => key a ≤ key b) := by
  intro l
  induction l with
  | nil => simp [sortByKey]
  | cons x xs ih => exact insertByKey_sorted key x (sortByKey key xs) ih

theorem getD_mem {α : Type} (d : α) :
    ∀ (l : List α) (j : Nat), j < l.length → l.getD j d ∈ l := by
  intro l
  induction l with
  | nil => intro j hj; simp at hj
  | cons x xs ih =>
    intro j hj
    cases j with
    | zero => simp [List.getD]
    | succ j' =>
      have : xs.getD j' d ∈ xs := ih j' (by simpa using hj)
      simp [List.getD] at this ⊢
      right
      simpa using this

theorem getD_map_snd : ∀ (l : List (Nat × Int)) (j : Nat),
    (l.map Prod.snd).getD j 0 = (l.getD j (0, 0)).2 := by
  intro l
  induction l with
  | nil => intro j; simp [List.getD]
  | cons x xs ih =>
    intro j
    cases j with
    | zero => simp [List.getD]
    | succ j' => simpa [List.getD] using ih j'

theorem getD_map_fst : ∀ (l : List (Nat × Int)) (j : Nat),
    (l.map Prod.fst).getD j 0 = (l.getD j (0, 0)).1 := by
  intro l
  induction l with
  | nil => intro j; simp [List.getD]
  | cons x xs ih =>
    intro j
    cases j with
    | zero => simp [List.getD]
    | succ j' => simpa [List.getD] using ih j'

theorem pairwise_le_getD {l : List (Nat × Int)}
    (h : l.Pairwise (fun a b => a.2 ≤ b.2)) :
    ∀ j k, j < k → k < l.length → (l.getD j (0, 0)).2 ≤ (l.getD k (0, 0)).2 := by
  induction l with
  | nil => intro j k _ hk; simp at hk
  | cons x xs ih =>
    rw [List.pairwise_cons] at h
    obtain ⟨hx, hxs⟩ := h
    intro j k hjk hk
    cases k with
    | zero => omega
    | succ k' =>
      cases j with
      | zero =>
        have hmem : xs.getD k' (0, 0) ∈ xs := getD_mem (0, 0) xs k' (by simpa using hk)
        simpa [List.getD] using hx _ hmem
      | succ j' =>
        simpa [List.getD] using ih hxs j' k' (by omega) (by simpa using hk)

theorem map_snd_zip_of_len : ∀ (M : List Nat) (W : List Int),
    M.length = W.length → (M.zip W).map Prod.snd = W := by
  intro M
  induction M with
  | nil =>
    intro W hW
    cases W with
    | nil => rfl
    | cons w ws => simp at hW
  | cons a as ih =>
    intro W hW
    cases W with
    | nil => simp at hW
    | cons w ws =>
      simp only [List.zip_cons_cons, List.map_cons]
      rw [ih ws (by simpa using hW)]

theorem positiveStartGo_spec : ∀ (ws : List Int) (i0 : Nat), (∃ w ∈ ws, 0 < w) →
    ∃ j, j < ws.length ∧ positiveStartGo ws i0 = i0 + j ∧ 0 < ws.getD j 0 ∧
      ∀ k, k < j → ws.getD k 0 ≤ 0 := by
  intro ws
  induction ws with
  | nil => intro i0 h; simp at h
  | cons w rest ih =>
    intro i0 h
    by_cases hw : 0 < w
    · refine ⟨0, by simp, ?_, by simpa [List.getD] using hw, by omega⟩
      unfold positiveStartGo
      rw [if_pos hw]
      omega
    · have hrest : ∃ x ∈ rest, 0 < x := by
        obtain ⟨x, hx, hxpos⟩ := h
        rcases List.mem_cons.mp hx with hx | hx
        · exact absurd (hx ▸ hxpos) hw
        · exact ⟨x, hx, hxpos⟩
      obtain ⟨j', hj'len, hj'ps, hj'pos, hj'pre⟩ := ih (i0 + 1) hrest
      refine ⟨j' + 1, by simpa using hj'len, ?_, by simpa [List.getD] using hj'pos, ?_⟩
      · unfold positiveStartGo
        rw [if_neg hw, hj'ps]
        omega
      · intro k hk
        cases k with
        | zero => simpa [List.getD] using not_lt.mp hw
        | succ k' => simpa [List.getD] using hj'pre k' (by omega)

/-- Summand of the weighted population-count sum: weight times the
player/opponent count difference over one mask. -/
def orbitTerm (b : Board) (mw : Nat × Int) : Int :=
  mw.2 * ((countOnes (b.player_board &&& mw.1) : Int) -
    (countOnes (b.opponent_board &&& mw.1) : Int))

/-- Structural-recursion view of the `BitMatrixEvaluator::evaluate` index
loop: walk the (mask, weight) pairs carrying the absolute index. -/
def evalGo (b : Board) (ps : Nat) : List (Nat × Int) → Nat → Int → Int
  | [], _, score => score
  | mw :: rest, i, score =>
    evalGo b ps rest (i + 1)
      (if i < ps then
        score - ((-mw.2).toNat : Int) *
          ((countOnes (b.player_board &&& mw.1) : Int) -
           (countOnes (b.opponent_board &&& mw.1) : Int))
       else
        score + (mw.2.toNat : Int) *
          ((countOnes (b.player_board &&& mw.1) : Int) -
           (countOnes (b.opponent_board &&& mw.1) : Int)))

theorem foldl_range_evalGo (b : Board) (ps : Nat) (W : List Int) (M : List Nat) :
    ∀ (l : List (Nat × Int)) (i0 : Nat) (s : Int),
      (∀ j, j < l.length → W.getD (i0 + j) 0 = (l.getD j (0, 0)).2) →
      (∀ j, j < l.length → M.getD (i0 + j) 0 = (l.getD j (0, 0)).1) →
      (List.range' i0 l.length).foldl
        (fun score i =>
          if i < ps then
            score - ((-(W.getD i 0)).toNat : Int) *
              ((countOnes (b.player_board &&& M.getD i 0) : Int) -
               (countOnes (b.opponent_board &&& M.getD i 0) : Int))
          else
            score + ((W.getD i 0).toNat : Int) *
              ((countOnes (b.player_board &&& M.getD i 0) : Int) -
               (countOnes (b.opponent_board &&& M.getD i 0) : Int))) s
        = evalGo b ps l i0 s := by
  intro l
  induction l with
  | nil => intro i0 s _ _; rfl
  | cons mw rest ih =>
    intro i0 s hW hM
    have hW0 : W.getD i0 0 = mw.2 := by simpa [List.getD] using hW 0 (by simp)
    have hM0 : M.getD i0 0 = mw.1 := by simpa [List.getD] using hM 0 (by simp)
    show (List.range' i0 (rest.length + 1)).foldl _ s = _
    rw [List.range'_succ, List.foldl_cons]
    simp only [hW0, hM0]
    rw [ih (i0 + 1) _
      (fun j hj => by
        have h := hW (j + 1) (by simpa using hj)
        rw [show i0 + (j + 1) = i0 + 1 + j by omega] at h
        simpa [List.getD] using h)
      (fun j hj => by
        have h := hM (j + 1) (by simpa using hj)
        rw [show i0 + (j + 1) = i0 + 1 + j by omega] at h
        simpa [List.getD] using h)]
    rfl

theorem evalGo_sum (b : Board) (ps : Nat) :
    ∀ (l : List (Nat × Int)) (i0 : Nat) (s : Int),
      (∀ j, j < l.length → i0 + j < ps → (l.getD j (0, 0)).2 ≤ 0) →
      (∀ j, j < l.length → ps ≤ i0 + j → 0 ≤ (l.getD j (0, 0)).2) →
      evalGo b ps l i0 s = s + (l.map (orbitTerm b)).sum := by
  intro l
  induction l with
  | nil => intro i0 s _ _; simp [evalGo]
  | cons mw rest ih =>
    intro i0 s hneg hpos
    simp only [evalGo]
    rw [ih (i0 + 1) _
      (fun j hj hlt => by
        have h := hneg (j + 1) (by simpa using hj) (by omega)
        simpa [List.getD] using h)
      (fun j hj hge => by
        have h := hpos (j + 1) (by simpa using hj) (by omega)
        simpa [List.getD] using h)]
    rw [List.map_cons, List.sum_cons]
    by_cases hi : i0 < ps
    · have hw : mw.2 ≤ 0 := by simpa [List.getD] using hneg 0 (by simp) (by omega)
      rw [if_pos hi]
      rw [show ((-mw.2).toNat : Int) = -mw.2 from Int.toNat_of_nonneg (by omega)]
      unfold orbitTerm
      ring
    · have hw : 0 ≤ mw.2 := by simpa [List.getD] using hpos 0 (by simp) (by omega)
      rw [if_neg hi]
      rw [show ((mw.2).toNat : Int) = mw.2 from Int.toNat_of_nonneg hw]
      unfold orbitTerm
      ring

theorem bitEval_sum (W : List Int) (M : List Nat) (hlen : M.length = W.length)
    (hsign : (∃ w ∈ W, 0 < w) ∨ (∀ w ∈ W, w = 0)) (b : Board) :
    (bitMatrixNew W M).evaluate b = ((M.zip W).map (orbitTerm b)).sum := by
  have hperm : (sortByKey (fun mw : Nat × Int => mw.2) (M.zip W)).Perm (M.zip W) :=
    sortByKey_perm _ (M.zip W)
  have hpw : (sortByKey (fun mw : Nat × Int => mw.2) (M.zip W)).Pairwise
      (fun a b => a.2 ≤ b.2) := sortByKey_sorted _ (M.zip W)
  set sorted := sortByKey (fun mw : Nat × Int => mw.2) (M.zip W) with hsorted
  set ps := positiveStartGo (sorted.map Prod.snd) 0 with hps
  have h1 : (bitMatrixNew W M).evaluate b = evalGo b ps sorted 0 0 := by
    unfold BitMatrixEvaluator.evaluate bitMatrixNew
    simp only [← hsorted, ← hps, List.length_map, List.range_eq_range']
    exact foldl_range_evalGo b ps (sorted.map Prod.snd) (sorted.map Prod.fst) sorted 0 0
      (fun j _ => by simpa using getD_map_snd sorted j)
      (fun j _ => by simpa using getD_map_fst sorted j)
  have hith : ∀ j, j < sorted.length → (sorted.getD j (0, 0)).2 ∈ W := by
    intro j hj
    have hmem : sorted.getD j (0, 0) ∈ M.zip W :=
      hperm.mem_iff.mp (getD_mem (0, 0) sorted j hj)
    have : (((sorted.getD j (0, 0)).1, (sorted.getD j (0, 0)).2)) ∈ M.zip W := by
      rw [Prod.mk.eta]; exact hmem
    exact (List.of_mem_zip this).2
  have hbounds : (∀ j, j < sorted.length → 0 + j < ps → (sorted.getD j (0, 0)).2 ≤ 0) ∧
      (∀ j, j < sorted.length → ps ≤ 0 + j → 0 ≤ (sorted.getD j (0, 0)).2) := by
    rcases hsign with ⟨w, hwmem, hwpos⟩ | hall
    · have hwmem2 : w ∈ sorted.map Prod.snd := by
        have h3 : w ∈ (M.zip W).map Prod.snd := by
          rw [map_snd_zip_of_len M W hlen]; exact hwmem
        exact ((hperm.map Prod.snd).mem_iff).mpr h3
      obtain ⟨j0, hj0len, hj0ps, hj0pos, hj0pre⟩ :=
        positiveStartGo_spec (sorted.map Prod.snd) 0 ⟨w, hwmem2, hwpos⟩
      rw [List.length_map] at hj0len
      constructor
      · intro j hj hlt
        have h4 := hj0pre j (by omega)
        rw [getD_map_snd] at h4
        exact h4
      · intro j hj hge
        have hj0j : j0 ≤ j := by omega
        rw [getD_map_snd] at hj0pos
        rcases Nat.eq_or_lt_of_le hj0j with h5 | h5
        · rw [← h5]; exact le_of_lt hj0pos
        · exact le_trans (le_of_lt hj0pos) (pairwise_le_getD hpw j0 j h5 hj)
    · constructor
      · intro j hj _
        rw [hall _ (hith j hj)]
      · intro j hj _
        rw [hall _ (hith j hj)]
  rw [h1, evalGo_sum b ps sorted 0 0 hbounds.1 hbounds.2, Int.zero_add]
  exact List.Perm.sum_eq (hperm.map (orbitTerm b))

theorem sum_indicator_filter (q : Nat → Bool) :
    ∀ l : List Nat, (((l.filter q).length : Nat) : Int)
      = (l.map (fun i => if q i then (1 : Int) else 0)).sum := by
  intro l
  induction l with
  | nil => rfl
  | cons x xs ih =>
    rw [List.filter_cons, List.map_cons, List.sum_cons]
    by_cases hq : q x
    · rw [if_pos hq, if_pos hq, List.length_cons]
      push_cast
      omega
    · simp only [hq]
      simpa using ih

theorem list_sum_range_reflect : ∀ (n : Nat) (f : Nat → Int),
    ((List.range n).map (fun i => f (n - 1 - i))).sum = ((List.range n).map f).sum := by
  intro n
  induction n with
  | zero => intro f; rfl
  | succ n ih =>
    intro f
    rw [List.range_succ, List.map_append, List.sum_append, List.map_append, List.sum_append]
    simp only [List.map_cons, List.map_nil, List.sum_cons, List.sum_nil]
    have e1 : n + 1 - 1 - n = 0 := by omega
    rw [e1]
    have e2 : ((List.range n).map (fun i => f (n + 1 - 1 - i))).sum
        = ((List.range n).map (fun i => f ((n - 1 - i) + 1))).sum := by
      apply congrArg
      apply List.map_congr_left
      intro i hi
      have : i < n := List.mem_range.mp hi
      congr 1
      omega
    rw [e2, ih (fun k => f (k + 1))]
    have h4 : ((List.range (n + 1)).map f).sum
        = f 0 + ((List.range n).map (fun i => f (i + 1))).sum := by
      rw [List.range_succ_eq_map, List.map_cons, List.sum_cons, List.map_map]
      rfl
    have h5 : ((List.range (n + 1)).map f).sum = ((List.range n).map f).sum + f n := by
      rw [List.range_succ]
      simp
    omega

theorem countOnes_cells (x : Nat) :
    ((countOnes x : Nat) : Int)
      = ((List.range 64).map (fun i => if x.testBit (63 - i) then (1 : Int) else 0)).sum := by
  unfold countOnes
  rw [sum_indicator_filter (fun i => x.testBit i) (List.range 64)]
  rw [← list_sum_range_reflect 64 (fun i => if x.testBit i then (1 : Int) else 0)]

theorem sum_map_mul_left {α : Type} (c : Int) (f : α → Int) :
    ∀ l : List α, (l.map (fun x => c * f x)).sum = c * (l.map f).sum := by
  intro l
  induction l with
  | nil => simp
  | cons x xs ih =>
    rw [List.map_cons, List.sum_cons, List.map_cons, List.sum_cons, ih]
    ring

theorem sum_map_sub {α : Type} (f g : α → Int) :
    ∀ l : List α, (l.map (fun x => f x - g x)).sum = (l.map f).sum - (l.map g).sum := by
  intro l
  induction l with
  | nil => simp
  | cons x xs ih =>
    simp only [List.map_cons, List.sum_cons, ih]
    ring

theorem sum_map_add {α : Type} (f g : α → Int) :
    ∀ l : List α, (l.map (fun x => f x + g x)).sum = (l.map f).sum + (l.map g).sum := by
  intro l
  induction l with
  | nil => simp
  | cons x xs ih =>
    simp only [List.map_cons, List.sum_cons, ih]
    ring

/-- Canonical D4-orbit representative of a cell (row, column): fold both
coordinates into 0..3 and order the pair descending. -/
def canonPair (r c : Nat) : Nat × Nat :=
  (max (min r (7 - r)) (min c (7 - c)), min (min r (7 - r)) (min c (7 - c)))

/-- Orbit representative of cell index `i`. -/
def orbitOf (i : Nat) : Nat × Nat := canonPair (i / 8) (i % 8)

/-- The representative cells of the ten orbit masks, in the order of
`orbitMasks` / `orbitWeights`. -/
def orbitReps : List (Nat × Nat) :=
  [(3, 3), (3, 2), (2, 2), (3, 1), (2, 1), (1, 1), (3, 0), (2, 0), (1, 0), (0, 0)]

/-- Contribution of cell `i` to the matrix score: the matrix weight if the
player holds the cell, minus the weight if the opponent holds it. -/
def cellScore (m : Nat → Nat → Int) (p o i : Nat) : Int :=
  (if p.testBit (63 - i) then m (i / 8) (i % 8) else 0) -
  (if o.testBit (63 - i) then m (i / 8) (i % 8) else 0)

/-- Every cell belongs to one of the ten orbits. -/
theorem orbitOf_mem : ∀ i, i < 64 → orbitOf i ∈ orbitReps := by decide

/-- Which of the ten orbit masks contain a cell of orbit (3, 3). -/
theorem mask_char_33 : ∀ i, i < 64 → orbitOf i = (3, 3) →
    ((0x0000001818000000 : Nat).testBit (63 - i) = true) ∧
    ((0x0000182424180000 : Nat).testBit (63 - i) = false) ∧
    ((0x0000240000240000 : Nat).testBit (63 - i) = false) ∧
    ((0x0018004242001800 : Nat).testBit (63 - i) = false) ∧
    ((0x0024420000422400 : Nat).testBit (63 - i) = false) ∧
    ((0x0042000000004200 : Nat).testBit (63 - i) = false) ∧
    ((0x1800008181000018 : Nat).testBit (63 - i) = false) ∧
    ((0x2400810000810024 : Nat).testBit (63 - i) = false) ∧
    ((0x4281000000008142 : Nat).testBit (63 - i) = false) ∧
    ((0x8100000000000081 : Nat).testBit (63 - i) = false) := by decide

/-- Which of the ten orbit masks contain a cell of orbit (3, 2). -/
theorem mask_char_32 : ∀ i, i < 64 → orbitOf i = (3, 2) →
    ((0x0000001818000000 : Nat).testBit (63 - i) = false) ∧
    ((0x0000182424180000 : Nat).testBit (63 - i) = true) ∧
    ((0x0000240000240000 : Nat).testBit (63 - i) = false) ∧
    ((0x0018004242001800 : Nat).testBit (63 - i) = false) ∧
    ((0x0024420000422400 : Nat).testBit (63 - i) = false) ∧
    ((0x0042000000004200 : Nat).testBit (63 - i) = false) ∧
    ((0x1800008181000018 : Nat).testBit (63 - i) = false) ∧
    ((0x2400810000810024 : Nat).testBit (63 - i) = false) ∧
    ((0x4281000000008142 : Nat).testBit (63 - i) = false) ∧
    ((0x8100000000000081 : Nat).testBit (63 - i) = false) := by decide

/-- Which of the ten orbit masks contain a cell of orbit (2, 2). -/
theorem mask_char_22 : ∀ i, i < 64 → orbitOf i = (2, 2) →
    ((0x0000001818000000 : Nat).testBit (63 - i) = false) ∧
    ((0x0000182424180000 : Nat).testBit (63 - i) = false) ∧
    ((0x0000240000240000 : Nat).testBit (63 - i) = true) ∧
    ((0x0018004242001800 : Nat).testBit (63 - i) = false) ∧
    ((0x0024420000422400 : Nat).testBit (63 - i) = false) ∧
    ((0x0042000000004200 : Nat).testBit (63 - i) = false) ∧
    ((0x1800008181000018 : Nat).testBit (63 - i) = false) ∧
    ((0x2400810000810024 : Nat).testBit (63 - i) = false) ∧
    ((0x4281000000008142 : Nat).testBit (63 - i) = false) ∧
    ((0x8100000000000081 : Nat).testBit (63 - i) = false) := by decide

/-- Which of the ten orbit masks contain a cell of orbit (3, 1). -/
theorem mask_char_31 : ∀ i, i < 64 → orbitOf i = (3, 1) →
    ((0x0000001818000000 : Nat).testBit (63 - i) = false) ∧
    ((0x0000182424180000 : Nat).testBit (63 - i) = false) ∧
    ((0x0000240000240000 : Nat).testBit (63 - i) = false) ∧
    ((0x0018004242001800 : Nat).testBit (63 - i) = true) ∧
    ((0x0024420000422400 : Nat).testBit (63 - i) = false) ∧
    ((0x0042000000004200 : Nat).testBit (63 - i) = false) ∧
    ((0x1800008181000018 : Nat).testBit (63 - i) = false) ∧
    ((0x2400810000810024 : Nat).testBit (63 - i) = false) ∧
    ((0x4281000000008142 : Nat).testBit (63 - i) = false) ∧
    ((0x8100000000000081 : Nat).testBit (63 - i) = false) := by decide

/-- Which of the ten orbit masks contain a cell of orbit (2, 1). -/
theorem mask_char_21 : ∀ i, i < 64 → orbitOf i = (2, 1) →
    ((0x0000001818000000 : Nat).testBit (63 - i) = false) ∧
    ((0x0000182424180000 : Nat).testBit (63 - i) = false) ∧
    ((0x0000240000240000 : Nat).testBit (63 - i) = false) ∧
    ((0x0018004242001800 : Nat).testBit (63 - i) = false) ∧
    ((0x0024420000422400 : Nat).testBit (63 - i) = true) ∧
    ((0x0042000000004200 : Nat).testBit (63 - i) = false) ∧
    ((0x1800008181000018 : Nat).testBit (63 - i) = false) ∧
    ((0x2400810000810024 : Nat).testBit (63 - i) = false) ∧
    ((0x4281000000008142 : Nat).testBit (63 - i) = false) ∧
    ((0x8100000000000081 : Nat).testBit (63 - i) = false) := by decide

/-- Which of the ten orbit masks contain a cell of orbit (1, 1). -/
theorem mask_char_11 : ∀ i, i < 64 → orbitOf i = (1, 1) →
    ((0x0000001818000000 : Nat).testBit (63 - i) = false) ∧
    ((0x0000182424180000 : Nat).testBit (63 - i) = false) ∧
    ((0x0000240000240000 : Nat).testBit (63 - i) = false) ∧
    ((0x0018004242001800 : Nat).testBit (63 - i) = false) ∧
    ((0x0024420000422400 : Nat).testBit (63 - i) = false) ∧
    ((0x0042000000004200 : Nat).testBit (63 - i) = true) ∧
    ((0x1800008181000018 : Nat).testBit (63 - i) = false) ∧
    ((0x2400810000810024 : Nat).testBit (63 - i) = false) ∧
    ((0x4281000000008142 : Nat).testBit (63 - i) = false) ∧
    ((0x8100000000000081 : Nat).testBit (63 - i) = false) := by decide

/-- Which of the ten orbit masks contain a cell of orbit (3, 0). -/
theorem mask_char_30 : ∀ i, i < 64 → orbitOf i = (3, 0) →
    ((0x0000001818000000 : Nat).testBit (63 - i) = false) ∧
    ((0x0000182424180000 : Nat).testBit (63 - i) = false) ∧
    ((0x0000240000240000 : Nat).testBit (63 - i) = false) ∧
    ((0x0018004242001800 : Nat).testBit (63 - i) = false) ∧
    ((0x0024420000422400 : Nat).testBit (63 - i) = false) ∧
    ((0x0042000000004200 : Nat).testBit (63 - i) = false) ∧
    ((0x1800008181000018 : Nat).testBit (63 - i) = true) ∧
    ((0x2400810000810024 : Nat).testBit (63 - i) = false) ∧
    ((0x4281000000008142 : Nat).testBit (63 - i) = false) ∧
    ((0x8100000000000081 : Nat).testBit (63 - i) = false) := by decide

/-- Which of the ten orbit masks contain a cell of orbit (2, 0). -/
theorem mask_char_20 : ∀ i, i < 64 → orbitOf i = (2, 0) →
    ((0x0000001818000000 : Nat).testBit (63 - i) = false) ∧
    ((0x0000182424180000 : Nat).testBit (63 - i) = false) ∧
    ((0x0000240000240000 : Nat).testBit (63 - i) = false) ∧
    ((0x0018004242001800 : Nat).testBit (63 - i) = false) ∧
    ((0x0024420000422400 : Nat).testBit (63 - i) = false) ∧
    ((0x0042000000004200 : Nat).testBit (63 - i) = false) ∧
    ((0x1800008181000018 : Nat).testBit (63 - i) = false) ∧
    ((0x2400810000810024 : Nat).testBit (63 - i) = true) ∧
    ((0x4281000000008142 : Nat).testBit (63 - i) = false) ∧
    ((0x8100000000000081 : Nat).testBit (63 - i) = false) := by decide

/-- Which of the ten orbit masks contain a cell of orbit (1, 0). -/
theorem mask_char_10 : ∀ i, i < 64 → orbitOf i = (1, 0) →
    ((0x0000001818000000 : Nat).testBit (63 - i) = false) ∧
    ((0x0000182424180000 : Nat).testBit (63 - i) = false) ∧
    ((0x0000240000240000 : Nat).testBit (63 - i) = false) ∧
    ((0x0018004242001800 : Nat).testBit (63 - i) = false) ∧
    ((0x0024420000422400 : Nat).testBit (63 - i) = false) ∧
    ((0x0042000000004200 : Nat).testBit (63 - i) = false) ∧
    ((0x1800008181000018 : Nat).testBit (63 - i) = false) ∧
    ((0x2400810000810024 : Nat).testBit (63 - i) = false) ∧
    ((0x4281000000008142 : Nat).testBit (63 - i) = true) ∧
    ((0x8100000000000081 : Nat).testBit (63 - i) = false) := by decide

/-- Which of the ten orbit masks contain a cell of orbit (0, 0). -/
theorem mask_char_00 : ∀ i, i < 64 → orbitOf i = (0, 0) →
    ((0x0000001818000000 : Nat).testBit (63 - i) = false) ∧
    ((0x0000182424180000 : Nat).testBit (63 - i) = false) ∧
    ((0x0000240000240000 : Nat).testBit (63 - i) = false) ∧
    ((0x0018004242001800 : Nat).testBit (63 - i) = false) ∧
    ((0x0024420000422400 : Nat).testBit (63 - i) = false) ∧
    ((0x0042000000004200 : Nat).testBit (63 - i) = false) ∧
    ((0x1800008181000018 : Nat).testBit (63 - i) = false) ∧
    ((0x2400810000810024 : Nat).testBit (63 - i) = false) ∧
    ((0x4281000000008142 : Nat).testBit (63 - i) = false) ∧
    ((0x8100000000000081 : Nat).testBit (63 - i) = true) := by decide


theorem symm_canon (m : Nat → Nat → Int)
    (hT : ∀ i j, i < 8 → j < 8 → m i j = m j i)
    (hV : ∀ i j, i < 8 → j < 8 → m i j = m (7 - i) j) :
    ∀ r c, r < 8 → c < 8 → m r c = m (canonPair r c).1 (canonPair r c).2 := by
  have hH : ∀ i j, i < 8 → j < 8 → m i j = m i (7 - j) := by
    intro i j hi hj
    rw [hT i j hi hj, hV j i hj hi, hT (7 - j) i (by omega) hi]
  intro r c hr hc
  show m r c = m (max (min r (7 - r)) (min c (7 - c))) (min (min r (7 - r)) (min c (7 - c)))
  have h1 : m r c = m (min r (7 - r)) c := by
    rcases le_or_lt r 3 with h | h
    · rw [min_eq_left (by omega : r ≤ 7 - r)]
    · rw [min_eq_right (by omega : 7 - r ≤ r)]
      exact hV r c hr hc
  have h2 : m (min r (7 - r)) c = m (min r (7 - r)) (min c (7 - c)) := by
    rcases le_or_lt c 3 with h | h
    · rw [min_eq_left (by omega : c ≤ 7 - c)]
    · rw [min_eq_right (by omega : 7 - c ≤ c)]
      exact hH (min r (7 - r)) c (lt_of_le_of_lt (min_le_left _ _) hr) hc
  have h3 : m (min r (7 - r)) (min c (7 - c))
      = m (max (min r (7 - r)) (min c (7 - c))) (min (min r (7 - r)) (min c (7 - c))) := by
    rcases le_or_lt (min c (7 - c)) (min r (7 - r)) with h | h
    · rw [max_eq_left h, min_eq_right h]
    · rw [max_eq_right (le_of_lt h), min_eq_left (le_of_lt h)]
      exact hT _ _ (lt_of_le_of_lt (min_le_left _ _) hr)
        (lt_of_le_of_lt (min_le_left _ _) hc)
  rw [h1, h2, h3]

theorem bridge_sum (m : Nat → Nat → Int)
    (hT : ∀ i j, i < 8 → j < 8 → m i j = m j i)
    (hV : ∀ i j, i < 8 → j < 8 → m i j = m (7 - i) j) (b : Board) :
    ((orbitMasks.zip (orbitWeights m)).map (orbitTerm b)).sum
      = ((List.range 64).map (cellScore m b.player_board b.opponent_board)).sum := by
  have hterm : ∀ M w, orbitTerm b (M, w)
      = ((List.range 64).map (fun i =>
          w * ((if (b.player_board &&& M).testBit (63 - i) then (1 : Int) else 0) -
               (if (b.opponent_board &&& M).testBit (63 - i) then (1 : Int) else 0)))).sum := by
    intro M w
    unfold orbitTerm
    rw [countOnes_cells, countOnes_cells, ← sum_map_sub, ← sum_map_mul_left]
  simp only [orbitMasks, orbitWeights, List.zip_cons_cons, List.zip_nil_right,
    List.map_cons, List.map_nil, List.sum_cons, List.sum_nil]
  simp only [hterm]
  rw [add_zero]
  rw [← sum_map_add, ← sum_map_add, ← sum_map_add, ← sum_map_add, ← sum_map_add,
    ← sum_map_add, ← sum_map_add, ← sum_map_add, ← sum_map_add]
  apply congrArg List.sum
  apply List.map_congr_left
  intro i hi
  have hi64 : i < 64 := List.mem_range.mp hi
  have hmem := orbitOf_mem i hi64
  simp only [orbitReps, List.mem_cons, List.not_mem_nil, or_false] at hmem
  have hcan : m (i / 8) (i % 8) = m (orbitOf i).1 (orbitOf i).2 :=
    symm_canon m hT hV (i / 8) (i % 8) (by omega) (by omega)
  simp only [Nat.testBit_and]
  rcases hmem with h | h | h | h | h | h | h | h | h | h
  · obtain ⟨e0, e1, e2, e3, e4, e5, e6, e7, e8, e9⟩ := mask_char_33 i hi64 h
    rw [e0, e1, e2, e3, e4, e5, e6, e7, e8, e9]
    have hc2 : m (i / 8) (i % 8) = m 3 3 := by rw [hcan, h]
    unfold cellScore
    rw [hc2]
    by_cases hpt : b.player_board.testBit (63 - i) <;>
      by_cases hot : b.opponent_board.testBit (63 - i) <;>
      simp [hpt, hot] <;> ring
  · obtain ⟨e0, e1, e2, e3, e4, e5, e6, e7, e8, e9⟩ := mask_char_32 i hi64 h
    rw [e0, e1, e2, e3, e4, e5, e6, e7, e8, e9]
    have hc2 : m (i / 8) (i % 8) = m 3 2 := by rw [hcan, h]
    unfold cellScore
    rw [hc2]
    by_cases hpt : b.player_board.testBit (63 - i) <;>
      by_cases hot : b.opponent_board.testBit (63 - i) <;>
      simp [hpt, hot] <;> ring
  · obtain ⟨e0, e1, e2, e3, e4, e5, e6, e7, e8, e9⟩ := mask_char_22 i hi64 h
    rw [e0, e1, e2, e3, e4, e5, e6, e7, e8, e9]
    have hc2 : m (i / 8) (i % 8) = m 2 2 := by rw [hcan, h]
    unfold cellScore
    rw [hc2]
    by_cases hpt : b.player_board.testBit (63 - i) <;>
      by_cases hot : b.opponent_board.testBit (63 - i) <;>
      simp [hpt, hot] <;> ring
  · obtain ⟨e0, e1, e2, e3, e4, e5, e6, e7, e8, e9⟩ := mask_char_31 i hi64 h
    rw [e0, e1, e2, e3, e4, e5, e6, e7, e8, e9]
    have hc2 : m (i / 8) (i % 8) = m 3 1 := by rw [hcan, h]
    unfold cellScore
    rw [hc2]
    by_cases hpt : b.player_board.testBit (63 - i) <;>
      by_cases hot : b.opponent_board.testBit (63 - i) <;>
      simp [hpt, hot] <;> ring
  · obtain ⟨e0, e1, e2, e3, e4, e5, e6, e7, e8, e9⟩ := mask_char_21 i hi64 h
    rw [e0, e1, e2, e3, e4, e5, e6, e7, e8, e9]
    have hc2 : m (i / 8) (i % 8) = m 2 1 := by rw [hcan, h]
    unfold cellScore
    rw [hc2]
    by_cases hpt : b.player_board.testBit (63 - i) <;>
      by_cases hot : b.opponent_board.testBit (63 - i) <;>
      simp [hpt, hot] <;> ring
  · obtain ⟨e0, e1, e2, e3, e4, e5, e6, e7, e8, e9⟩ := mask_char_11 i hi64 h
    rw [e0, e1, e2, e3, e4, e5, e6, e7, e8, e9]
    have hc2 : m (i / 8) (i % 8) = m 1 1 := by rw [hcan, h]
    unfold cellScore
    rw [hc2]
    by_cases hpt : b.player_board.testBit (63 - i) <;>
      by_cases hot : b.opponent_board.testBit (63 - i) <;>
      simp [hpt, hot] <;> ring
  · obtain ⟨e0, e1, e2, e3, e4, e5, e6, e7, e8, e9⟩ := mask_char_30 i hi64 h
    rw [e0, e1, e2, e3, e4, e5, e6, e7, e8, e9]
    have hc2 : m (i / 8) (i % 8) = m 3 0 := by rw [hcan, h]
    unfold cellScore
    rw [hc2]
    by_cases hpt : b.player_board.testBit (63 - i) <;>
      by_cases hot : b.opponent_board.testBit (63 - i) <;>
      simp [hpt, hot] <;> ring
  · obtain ⟨e0, e1, e2, e3, e4, e5, e6, e7, e8, e9⟩ := mask_char_20 i hi64 h
    rw [e0, e1, e2, e3, e4, e5, e6, e7, e8, e9]
    have hc2 : m (i / 8) (i % 8) = m 2 0 := by rw [hcan, h]
    unfold cellScore
    rw [hc2]
    by_cases hpt : b.player_board.testBit (63 - i) <;>
      by_cases hot : b.opponent_board.testBit (63 - i) <;>
      simp [hpt, hot] <;> ring
  · obtain ⟨e0, e1, e2, e3, e4, e5, e6, e7, e8, e9⟩ := mask_char_10 i hi64 h
    rw [e0, e1, e2, e3, e4, e5, e6, e7, e8, e9]
    have hc2 : m (i / 8) (i % 8) = m 1 0 := by rw [hcan, h]
    unfold cellScore
    rw [hc2]
    by_cases hpt : b.player_board.testBit (63 - i) <;>
      by_cases hot : b.opponent_board.testBit (63 - i) <;>
      simp [hpt, hot] <;> ring
  · obtain ⟨e0, e1, e2, e3, e4, e5, e6, e7, e8, e9⟩ := mask_char_00 i hi64 h
    rw [e0, e1, e2, e3, e4, e5, e6, e7, e8, e9]
    have hc2 : m (i / 8) (i % 8) = m 0 0 := by rw [hcan, h]
    unfold cellScore
    rw [hc2]
    by_cases hpt : b.player_board.testBit (63 - i) <;>
      by_cases hot : b.opponent_board.testBit (63 - i) <;>
      simp [hpt, hot] <;> ring

theorem vecGo_enum_sum (m : Nat → Nat → Int) (p o : Nat) (hdisj : p &&& o = 0) :
    ∀ (n k : Nat), ∃ v, getBoardVecGo p o (List.range' k n) = Except.ok v ∧
      ∀ s : Int, (v.enumFrom k).foldl
        (fun score ic =>
          if ic.2 = Color.Black then score + m (ic.1 / 8) (ic.1 % 8)
          else if ic.2 = Color.White then score - m (ic.1 / 8) (ic.1 % 8)
          else score) s
        = s + ((List.range' k n).map (cellScore m p o)).sum := by
  intro n
  induction n with
  | zero => intro k; exact ⟨[], rfl, fun s => by simp⟩
  | succ n ih =>
    intro k
    obtain ⟨v', hok, hfold⟩ := ih (k + 1)
    have hrange : List.range' k (n + 1) = k :: List.range' (k + 1) n := List.range'_succ k n 1
    by_cases hpb : p &&& BITS k ≠ 0
    · have hpt : p.testBit (63 - k) = true := (and_BITS_ne p k).mp hpb
      have hot : o.testBit (63 - k) = false := disjoint_testBit hdisj (63 - k) hpt
      have hob : ¬(o &&& BITS k ≠ 0) := by
        rw [and_BITS_ne, hot]; simp
      refine ⟨Color.Black :: v', ?_, ?_⟩
      · rw [hrange]
        show (if p &&& BITS k ≠ 0 then
            if o &&& BITS k ≠ 0 then Except.error BoardError.InvalidState
            else (getBoardVecGo p o (List.range' (k + 1) n)).map (fun v => Color.Black :: v)
          else
            if o &&& BITS k ≠ 0 then
              (getBoardVecGo p o (List.range' (k + 1) n)).map (fun v => Color.White :: v)
            else (getBoardVecGo p o (List.range' (k + 1) n)).map (fun v => Color.Empty :: v))
          = Except.ok (Color.Black :: v')
        rw [if_pos hpb, if_neg hob, hok]
        rfl
      · intro s
        rw [List.enumFrom_cons, List.foldl_cons]
        refine (hfold (s + m (k / 8) (k % 8))).trans ?_
        rw [hrange, List.map_cons, List.sum_cons]
        unfold cellScore
        rw [hpt, hot, if_pos rfl, if_neg (by simp)]
        ring
    · have hpt : p.testBit (63 - k) = false := by
        rcases Bool.eq_false_or_eq_true (p.testBit (63 - k)) with h | h
        · exact absurd ((and_BITS_ne p k).mpr h) hpb
        · exact h
      by_cases hob : o &&& BITS k ≠ 0
      · have hot : o.testBit (63 - k) = true := (and_BITS_ne o k).mp hob
        refine ⟨Color.White :: v', ?_, ?_⟩
        · rw [hrange]
          show (if p &&& BITS k ≠ 0 then
              if o &&& BITS k ≠ 0 then Except.error BoardError.InvalidState
              else (getBoardVecGo p o (List.range' (k + 1) n)).map (fun v => Color.Black :: v)
            else
              if o &&& BITS k ≠ 0 then
                (getBoardVecGo p o (List.range' (k + 1) n)).map (fun v => Color.White :: v)
              else (getBoardVecGo p o (List.range' (k + 1) n)).map (fun v => Color.Empty :: v))
            = Except.ok (Color.White :: v')
          rw [if_neg hpb, if_pos hob, hok]
          rfl
        · intro s
          rw [List.enumFrom_cons, List.foldl_cons]
          refine (hfold (s - m (k / 8) (k % 8))).trans ?_
          rw [hrange, List.map_cons, List.sum_cons]
          unfold cellScore
          rw [hpt, hot, if_neg (by simp), if_pos rfl]
          ring
      · have hot : o.testBit (63 - k) = false := by
          rcases Bool.eq_false_or_eq_true (o.testBit (63 - k)) with h | h
          · exact absurd ((and_BITS_ne o k).mpr h) hob
          · exact h
        refine ⟨Color.Empty :: v', ?_, ?_⟩
        · rw [hrange]
          show (if p &&& BITS k ≠ 0 then
              if o &&& BITS k ≠ 0 then Except.error BoardError.InvalidState
              else (getBoardVecGo p o (List.range' (k + 1) n)).map (fun v => Color.Black :: v)
            else
              if o &&& BITS k ≠ 0 then
                (getBoardVecGo p o (List.range' (k + 1) n)).map (fun v => Color.White :: v)
              else (getBoardVecGo p o (List.range' (k + 1) n)).map (fun v => Color.Empty :: v))
            = Except.ok (Color.Empty :: v')
          rw [if_neg hpb, if_neg hob, hok]
          rfl
        · intro s
          rw [List.enumFrom_cons, List.foldl_cons]
          refine (hfold s).trans ?_
          rw [hrange, List.map_cons, List.sum_cons]
          unfold cellScore
          rw [hpt, hot]
          ring

/-- For a board with disjoint bitboards, `MatrixEvaluator::evaluate`
returns the per-cell weighted sum. -/
theorem matrix_sum (m : Nat → Nat → Int) (b : Board)
    (hdisj : b.player_board &&& b.opponent_board = 0) :
    matrixEvaluate m b
      = Except.ok (((List.range 64).map
          (cellScore m b.player_board b.opponent_board)).sum) := by
  obtain ⟨v, hok, hfold⟩ := vecGo_enum_sum m b.player_board b.opponent_board hdisj 64 0
  unfold matrixEvaluate Board.get_board_vec_black
  rw [List.range_eq_range', hok]
  show Except.ok (v.enum.foldl _ 0) = _
  rw [show v.enum = v.enumFrom 0 from rfl, hfold 0, Int.zero_add]

/-- Counterexample to claim C2 as stated: the constant matrix −1 is
symmetric under the board's full symmetry group, yet on the board with a
single player stone `MatrixEvaluator::evaluate` returns −1 while the
`BitMatrixEvaluator` produced by `to_bit_matrix_evaluator` returns 0.
`positive_start` stays 0 when no weight is strictly positive, so the
first evaluation loop is empty and the second one skips every negative
weight (`for _ in 0..w` with `w < 0` is an empty range). -/
theorem c2_counterexample :
    (∀ i j, i < 8 → j < 8 → (fun _ _ => (-1 : Int)) i j = (fun _ _ => (-1 : Int)) j i) ∧
    (∀ i j, i < 8 → j < 8 →
      (fun _ _ => (-1 : Int)) i j = (fun _ _ => (-1 : Int)) (7 - i) j) ∧
    matrixEvaluate (fun _ _ => (-1 : Int)) (Board.mk (2 ^ 63) 0 Turn.Black none)
      = Except.ok (-1) ∧
    (toBitMatrixEvaluator (fun _ _ => (-1 : Int))).evaluate
      (Board.mk (2 ^ 63) 0 Turn.Black none) = 0 :=
  ⟨fun _ _ _ _ => rfl, fun _ _ _ _ => rfl, by decide, by decide⟩

/-- Claim C2 (amended): for every matrix symmetric under the board's
symmetry group (generated by transposition `hT` and vertical flip `hV`),
provided some orbit weight is strictly positive or all ten orbit weights
are zero, the `BitMatrixEvaluator` built by `to_bit_matrix_evaluator`
returns exactly the `MatrixEvaluator::evaluate` score on every board
with disjoint bitboards.  Without the sign proviso the claim is false
(see the counterexample): when all orbit weights are non-positive and
one is negative, `positive_start` defaults to 0 and the negative weights
are dropped. -/
theorem c2_matrix_bit_equiv (m : Nat → Nat → Int)
    (hT : ∀ i j, i < 8 → j < 8 → m i j = m j i)
    (hV : ∀ i j, i < 8 → j < 8 → m i j = m (7 - i) j)
    (hsign : (∃ w ∈ orbitWeights m, 0 < w) ∨ (∀ w ∈ orbitWeights m, w = 0))
    (b : Board) (hdisj : b.player_board &&& b.opponent_board = 0) :
    matrixEvaluate m b = Except.ok ((toBitMatrixEvaluator m).evaluate b) := by
  have h1 := bitEval_sum (orbitWeights m) orbitMasks rfl hsign b
  have h2 := bridge_sum m hT hV b
  rw [matrix_sum m b hdisj]
  unfold toBitMatrixEvaluator
  rw [h1, h2]

/-- Witness for C2: the constant matrix 1 (strictly positive orbit
weights) at the start position, where both evaluators return 0. -/
theorem c2_matrix_bit_equiv_witness :
    matrixEvaluate (fun _ _ => (1 : Int)) Board.default
        = Except.ok ((toBitMatrixEvaluator (fun _ _ => (1 : Int))).evaluate Board.default) ∧
      (toBitMatrixEvaluator (fun _ _ => (1 : Int))).evaluate Board.default = 0 :=
  ⟨c2_matrix_bit_equiv (fun _ _ => (1 : Int)) (fun _ _ _ _ => rfl) (fun _ _ _ _ => rfl)
      (Or.inl (by decide)) Board.default (by decide),
    by decide⟩

/-! ### Alpha-beta search at depth 0 (`search/alpha_beta.rs`) -/

/-- `AlphaBetaSearch::score_board` (alpha_beta.rs lines 70-79): terminal
positions get the `±win_score` / 0 sentinel (`is_win` is
`player_piece_num > opponent_piece_num`, `is_lose` the reverse), other
positions the move-ordering evaluator.  `AlphaBetaSearch::new` sets
`move_ordering_evaluator` to the same `evaluator` argument, so a single
evaluator function `ev` models both. -/
def scoreBoardZ (ev : Board → Int) (win_score : Int) (b : Board) : Int :=
  if b.is_game_over then
    if b.opponent_piece_num < b.player_piece_num then win_score
    else if b.player_piece_num < b.opponent_piece_num then -win_score
    else 0
  else ev b

/-- `AlphaBetaSearch::get_search_score` at `depth = 0` (alpha_beta.rs
lines 106-116): the terminal sentinel, otherwise `evaluator.evaluate`;
the `alpha`/`beta` arguments are never read on this path. -/
def getSearchScoreZero (ev : Board → Int) (win_score : Int) (b : Board)
    (alpha beta : Int) : Int :=
  if b.is_game_over then
    if b.opponent_piece_num < b.player_piece_num then win_score
    else if b.player_piece_num < b.opponent_piece_num then -win_score
    else 0
  else ev b

theorem getSearchScoreZero_eq (ev : Board → Int) (ws : Int) (b : Board)
    (alpha beta : Int) : getSearchScoreZero ev ws b alpha beta = scoreBoardZ ev ws b := rfl

/-- The root loop of `AlphaBetaSearch::get_move` (alpha_beta.rs lines
250-258) at `max_depth = 0`: running alpha with strict improvement, no
beta cut at the root. -/
def abLoopZero (ev : Board → Int) (ws beta : Int) (b1 : Board) :
    List Nat → Int → Option Nat → Option Nat
  | [], _, best => best
  | mv :: rest, alpha, best =>
    let score := -(getSearchScoreZero ev ws (b1.do_move mv).2 (-beta) (-alpha))
    if score > alpha then abLoopZero ev ws beta b1 rest score (some mv)
    else abLoopZero ev ws beta b1 rest alpha best

/-- `AlphaBetaSearch::get_move` (alpha_beta.rs lines 246-260) at
`max_depth = 0`.  The outer `none` models the panic of
`get_legal_moves_vec_ordered(board).unwrap()` when the mover must pass;
otherwise `get_legal_moves_vec` fills the root board's legal-move cache
(`b1`), the moves are stably sorted ascending by `score_board` of the
one-ply child (`sort_by_key`), and the loop starts from
`alpha = i32::MIN + 1`, `beta = i32::MAX - 1`. -/
def alphaBetaGetMoveZero (ev : Board → Int) (ws : Int) (b : Board) : Option (Option Nat) :=
  if b.is_pass then none
  else
    let b1 := b.get_legal_moves.2
    let sorted := sortByKey (fun mv => scoreBoardZ ev ws (b1.do_move mv).2)
      b1.get_legal_moves_vec
    some (abLoopZero ev ws (2 ^ 31 - 2) b1 sorted (-(2 ^ 31 - 1)) none)

/-- First-maximum scan with strict improvement (the spec's brute-force
"picks the maximum"): on ties the earlier move wins. -/
def bfGo (score : Nat → Int) : Nat → List Nat → Nat
  | cur, [] => cur
  | cur, mv :: rest => if score mv > score cur then bfGo score mv rest else bfGo score cur rest

/-- Spec-side brute force of claim C8: score each legal move (natural
cell order) by the evaluator applied to the one-ply child, negated to
the mover's perspective with terminal children scored by the sentinel,
and pick the (first) maximum. -/
def bruteForceZero (ev : Board → Int) (ws : Int) (b : Board) : Option Nat :=
  match b.get_legal_moves_vec with
  | [] => none
  | mv :: rest => some (bfGo (fun m2 => -(scoreBoardZ ev ws (b.do_move m2).2)) mv rest)

/-- First-minimum scan (mirror of `bfGo` on the un-negated key). -/
def firstMinKey (key : Nat → Int) : Nat → List Nat → Nat
  | cur, [] => cur
  | cur, mv :: rest =>
    if key mv < key cur then firstMinKey key mv rest else firstMinKey key cur rest

theorem firstMin_le (key : Nat → Int) : ∀ (l : List Nat) (cur : Nat),
    key (firstMinKey key cur l) ≤ key cur := by
  intro l
  induction l with
  | nil => intro cur; exact le_refl _
  | cons mv rest ih =>
    intro cur
    unfold firstMinKey
    by_cases h : key mv < key cur
    · rw [if_pos h]
      exact le_trans (ih mv) (le_of_lt h)
    · rw [if_neg h]
      exact ih cur

theorem firstMin_min (key : Nat → Int) : ∀ (l : List Nat) (cur : Nat),
    ∀ z ∈ l, key (firstMinKey key cur l) ≤ key z := by
  intro l
  induction l with
  | nil => intro cur z hz; simp at hz
  | cons mv rest ih =>
    intro cur z hz
    unfold firstMinKey
    rcases List.mem_cons.mp hz with hz | hz
    · subst hz
      by_cases h : key z < key cur
      · rw [if_pos h]; exact firstMin_le key rest z
      · rw [if_neg h]
        exact le_trans (firstMin_le key rest cur) (not_lt.mp h)
    · by_cases h : key mv < key cur
      · rw [if_pos h]; exact ih mv z hz
      · rw [if_neg h]; exact ih cur z hz

theorem firstMin_stay (key : Nat → Int) : ∀ (l : List Nat) (cur : Nat),
    (∀ z ∈ l, ¬ key z < key cur) → firstMinKey key cur l = cur := by
  intro l
  induction l with
  | nil => intro cur _; rfl
  | cons mv rest ih =>
    intro cur h
    unfold firstMinKey
    rw [if_neg (h mv (by simp))]
    exact ih cur (fun z hz => h z (by simp [hz]))

theorem firstMin_glue (key : Nat → Int) : ∀ (l : List Nat) (x y : Nat),
    key x ≤ key y → key (firstMinKey key y l) < key x →
    firstMinKey key x l = firstMinKey key y l := by
  intro l
  induction l with
  | nil =>
    intro x y hxy hlt
    exact absurd (lt_of_lt_of_le hlt hxy) (lt_irrefl _)
  | cons mv rest ih =>
    intro x y hxy hlt
    unfold firstMinKey at hlt ⊢
    by_cases hmx : key mv < key x
    · rw [if_pos hmx, if_pos (lt_of_lt_of_le hmx hxy)]
    · rw [if_neg hmx]
      by_cases hmy : key mv < key y
      · rw [if_pos hmy] at hlt ⊢
        exact ih x mv (not_lt.mp hmx) hlt
      · rw [if_neg hmy] at hlt ⊢
        exact ih x y hxy hlt

theorem firstMin_mem (key : Nat → Int) : ∀ (l : List Nat) (cur : Nat),
    firstMinKey key cur l ∈ cur :: l := by
  intro l
  induction l with
  | nil => intro cur; simp [firstMinKey]
  | cons mv rest ih =>
    intro cur
    unfold firstMinKey
    by_cases h : key mv < key cur
    · rw [if_pos h]
      rcases List.mem_cons.mp (ih mv) with h2 | h2
      · rw [h2]; simp
      · simp [h2]
    · rw [if_neg h]
      rcases List.mem_cons.mp (ih cur) with h2 | h2
      · rw [h2]; simp
      · simp [h2]

theorem firstMin_congr (key key2 : Nat → Int) : ∀ (l : List Nat) (c : Nat),
    (∀ z ∈ c :: l, key z = key2 z) → firstMinKey key c l = firstMinKey key2 c l := by
  intro l
  induction l with
  | nil => intro c _; rfl
  | cons mv rest ih =>
    intro c h
    have hc := h c (by simp)
    have hmv := h mv (by simp)
    unfold firstMinKey
    rw [hc, hmv]
    by_cases hlt : key2 mv < key2 c
    · rw [if_pos hlt, if_pos hlt]
      exact ih mv (fun z hz => by
        rcases List.mem_cons.mp hz with hz | hz
        · rw [hz]; exact hmv
        · exact h z (by simp [hz]))
    · rw [if_neg hlt, if_neg hlt]
      exact ih c (fun z hz => by
        rcases List.mem_cons.mp hz with hz | hz
        · rw [hz]; exact hc
        · exact h z (by simp [hz]))

theorem bfGo_eq_firstMin (key : Nat → Int) : ∀ (l : List Nat) (cur : Nat),
    bfGo (fun m => -(key m)) cur l = firstMinKey key cur l := by
  intro l
  induction l with
  | nil => intro cur; rfl
  | cons mv rest ih =>
    intro cur
    simp only [bfGo, firstMinKey]
    by_cases h : key mv < key cur
    · have h2 : -(key cur) < -(key mv) := neg_lt_neg h
      rw [if_pos (show -(key mv) > -(key cur) from h2), if_pos h, ih]
    · have h2 : ¬(-(key mv) > -(key cur)) := fun hc => h (neg_lt_neg_iff.mp hc)
      rw [if_neg h2, if_neg h, ih]

theorem insertByKey_head {α : Type} (key : α → Int) (x h2 : α) (tl2 : List α) :
    ∃ tl, insertByKey key x (h2 :: tl2) = (if key x ≤ key h2 then x else h2) :: tl := by
  unfold insertByKey
  by_cases h : key x ≤ key h2
  · exact ⟨h2 :: tl2, by rw [if_pos h, if_pos h]⟩
  · exact ⟨insertByKey key x tl2, by rw [if_neg h, if_neg h]⟩

theorem sortByKey_head (key : Nat → Int) : ∀ (l : List Nat) (x : Nat),
    ∃ tl, sortByKey key (x :: l) = firstMinKey key x l :: tl := by
  intro l
  induction l with
  | nil => intro x; exact ⟨[], rfl⟩
  | cons y ys ih =>
    intro x
    obtain ⟨tl2, htl2⟩ := ih y
    have hsort : sortByKey key (x :: y :: ys)
        = insertByKey key x (firstMinKey key y ys :: tl2) := by
      unfold sortByKey
      rw [show sortByKey key (y :: ys) = firstMinKey key y ys :: tl2 from htl2]
    obtain ⟨tl, htl⟩ := insertByKey_head key x (firstMinKey key y ys) tl2
    refine ⟨tl, ?_⟩
    rw [hsort, htl]
    have hhead : (if key x ≤ key (firstMinKey key y ys) then x else firstMinKey key y ys)
        = firstMinKey key x (y :: ys) := by
      simp only [firstMinKey]
      by_cases hxy : key y < key x
      · rw [if_pos hxy,
          if_neg (not_le.mpr (lt_of_le_of_lt (firstMin_le key ys y) hxy))]
      · rw [if_neg hxy]
        by_cases hxm : key x ≤ key (firstMinKey key y ys)
        · rw [if_pos hxm]
          exact (firstMin_stay key ys x (fun z hz =>
            not_lt.mpr (le_trans hxm (firstMin_min key ys y z hz)))).symm
        · rw [if_neg hxm]
          exact (firstMin_glue key ys x y (not_lt.mp hxy) (not_le.mp hxm)).symm
    rw [hhead]

theorem abLoopZero_noimp (ev : Board → Int) (ws beta : Int) (b1 : Board) :
    ∀ (l : List Nat) (alpha : Int) (best : Option Nat),
      (∀ z ∈ l, -(scoreBoardZ ev ws ((b1.do_move z).2)) ≤ alpha) →
      abLoopZero ev ws beta b1 l alpha best = best := by
  intro l
  induction l with
  | nil => intro alpha best _; rfl
  | cons mv rest ih =>
    intro alpha best h
    simp only [abLoopZero, getSearchScoreZero_eq]
    rw [if_neg (not_lt.mpr (h mv (by simp)))]
    exact ih alpha best (fun z hz => h z (by simp [hz]))

theorem abLoopZero_run (ev : Board → Int) (ws beta : Int) (b1 : Board)
    (s0 : Nat) (tl : List Nat) (alpha : Int) (best : Option Nat)
    (hgt : alpha < -(scoreBoardZ ev ws ((b1.do_move s0).2)))
    (hle : ∀ z ∈ tl,
      scoreBoardZ ev ws ((b1.do_move s0).2) ≤ scoreBoardZ ev ws ((b1.do_move z).2)) :
    abLoopZero ev ws beta b1 (s0 :: tl) alpha best = some s0 := by
  simp only [abLoopZero, getSearchScoreZero_eq]
  rw [if_pos hgt]
  exact abLoopZero_noimp ev ws beta b1 tl _ _ (fun z hz => neg_le_neg (hle z hz))

theorem do_move_cache_some (p o : Nat) (t : Turn) (m : Nat) (hm : m < 64) :
    (Board.mk p o t none).do_move m
      = (Board.mk p o t (some (getLegalMovesNonAvx p o))).do_move m := by
  have hmle : ¬ 64 ≤ m := not_le.mpr hm
  simp only [Board.do_move, Board.is_legal_move, Board.get_legal_moves, if_neg hmle]

theorem do_move_cache_valid (b : Board) (m : Nat) (hm : m < 64)
    (hcache : b.legal_moves_cache = none ∨
      b.legal_moves_cache = some (getLegalMovesNonAvx b.player_board b.opponent_board)) :
    b.do_move m = (Board.mk b.player_board b.opponent_board b.turn
      (some (getLegalMovesNonAvx b.player_board b.opponent_board))).do_move m := by
  rcases hcache with hc | hc
  · cases b with
    | mk bp bo bt bc =>
      simp only at hc
      subst hc
      exact do_move_cache_some bp bo bt m hm
  · cases b with
    | mk bp bo bt bc =>
      simp only at hc
      subst hc
      rfl

theorem mem_legal_vec {b : Board} {z : Nat} (hz : z ∈ b.get_legal_moves_vec) :
    z < 64 := by
  unfold Board.get_legal_moves_vec at hz
  exact List.mem_range.mp (List.mem_filter.mp hz).1

theorem get_legal_moves_fst (b : Board)
    (hcache : b.legal_moves_cache = none ∨
      b.legal_moves_cache = some (getLegalMovesNonAvx b.player_board b.opponent_board)) :
    b.get_legal_moves.1 = getLegalMovesNonAvx b.player_board b.opponent_board := by
  rcases hcache with hc | hc <;> (unfold Board.get_legal_moves; rw [hc])

theorem get_legal_moves_snd (b : Board)
    (hcache : b.legal_moves_cache = none ∨
      b.legal_moves_cache = some (getLegalMovesNonAvx b.player_board b.opponent_board)) :
    b.get_legal_moves.2 = Board.mk b.player_board b.opponent_board b.turn
      (some (getLegalMovesNonAvx b.player_board b.opponent_board)) := by
  rcases hcache with hc | hc
  · cases b with
    | mk bp bo bt bc =>
      simp only at hc
      subst hc
      rfl
  · cases b with
    | mk bp bo bt bc =>
      simp only at hc
      subst hc
      rfl

theorem vec_b1_eq (b : Board)
    (hcache : b.legal_moves_cache = none ∨
      b.legal_moves_cache = some (getLegalMovesNonAvx b.player_board b.opponent_board)) :
    (b.get_legal_moves.2).get_legal_moves_vec = b.get_legal_moves_vec := by
  have h1 : (b.get_legal_moves.2).get_legal_moves.1
      = getLegalMovesNonAvx b.player_board b.opponent_board := by
    rw [get_legal_moves_snd b hcache]
    rfl
  unfold Board.get_legal_moves_vec
  simp only [h1, get_legal_moves_fst b hcache]

/-- Claim C8: at `max_depth = 0`, `AlphaBetaSearch::get_move` (with the
evaluator aliased as its own move-ordering evaluator, as
`AlphaBetaSearch::new` does) returns exactly the brute-force first
maximum of the one-ply scores over the legal moves in natural cell
order.  Hypotheses: valid (or absent) legal-move cache, bounded
bitboards, at least one legal move, and all one-ply scores below
`i32::MAX - 1` so that the `i32::MIN + 1` starting alpha never saturates
(true of any run that does not overflow `i32`). -/
theorem c8_alpha_beta_depth_zero (ev : Board → Int) (ws : Int) (b : Board)
    (hp : b.player_board < 2 ^ 64) (ho : b.opponent_board < 2 ^ 64)
    (hcache : b.legal_moves_cache = none ∨
      b.legal_moves_cache = some (getLegalMovesNonAvx b.player_board b.opponent_board))
    (hne : b.get_legal_moves_vec ≠ [])
    (hbound : ∀ m2 ∈ b.get_legal_moves_vec,
      scoreBoardZ ev ws (b.do_move m2).2 < 2 ^ 31 - 1) :
    alphaBetaGetMoveZero ev ws b = some (bruteForceZero ev ws b) := by
  have hmask : b.get_legal_moves.1 ≠ 0 := by
    intro h0
    apply hne
    unfold Board.get_legal_moves_vec
    refine List.filter_eq_nil.mpr ?_
    intro a _
    simp [h0]
  have hpass : b.is_pass = false := by
    cases hip : b.is_pass
    · rfl
    · exact absurd ((is_pass_iff_empty_mask b hp ho hcache).mp hip) hmask
  set key1 : Nat → Int :=
    fun mv => scoreBoardZ ev ws ((b.get_legal_moves.2.do_move mv).2) with hk1
  set key2 : Nat → Int := fun mv => scoreBoardZ ev ws ((b.do_move mv).2) with hk2
  have hkey : ∀ z ∈ b.get_legal_moves_vec, key1 z = key2 z := by
    intro z hz
    have hz64 : z < 64 := mem_legal_vec hz
    simp only [hk1, hk2]
    rw [get_legal_moves_snd b hcache, do_move_cache_valid b z hz64 hcache]
  obtain ⟨x, tl, hxt⟩ : ∃ x tl, b.get_legal_moves_vec = x :: tl := by
    cases hv : b.get_legal_moves_vec with
    | nil => exact absurd hv hne
    | cons x tl => exact ⟨x, tl, rfl⟩
  obtain ⟨stl, hsort⟩ := sortByKey_head key1 tl x
  have hs0mem : firstMinKey key1 x tl ∈ b.get_legal_moves_vec := by
    rw [hxt]; exact firstMin_mem key1 tl x
  have hsorted := sortByKey_sorted key1 (x :: tl)
  rw [hsort, List.pairwise_cons] at hsorted
  have hgt : (-(2 ^ 31 - 1) : Int) < -(key1 (firstMinKey key1 x tl)) := by
    have h1 := hbound _ hs0mem
    have h2 := hkey _ hs0mem
    simp only [hk2] at h2
    omega
  have hab : alphaBetaGetMoveZero ev ws b
      = some (some (firstMinKey key1 x tl)) := by
    unfold alphaBetaGetMoveZero
    rw [hpass, if_neg (show ¬(false = true) by simp)]
    show some (abLoopZero ev ws (2 ^ 31 - 2) b.get_legal_moves.2
      (sortByKey key1 b.get_legal_moves.2.get_legal_moves_vec)
      (-(2 ^ 31 - 1)) none) = _
    rw [vec_b1_eq b hcache, hxt, hsort]
    rw [abLoopZero_run ev ws (2 ^ 31 - 2) b.get_legal_moves.2
      (firstMinKey key1 x tl) stl (-(2 ^ 31 - 1)) none hgt hsorted.1]
  have hbf : bruteForceZero ev ws b = some (firstMinKey key2 x tl) := by
    unfold bruteForceZero
    rw [hxt]
    show some (bfGo (fun m2 => -(scoreBoardZ ev ws ((b.do_move m2).2))) x tl) = _
    exact congrArg some (bfGo_eq_firstMin key2 tl x)
  rw [hab, hbf]
  rw [firstMin_congr key1 key2 tl x (fun z hz => hkey z (by rw [hxt]; exact hz))]

/-- Witness for C8: the piece-difference evaluator on the start position,
where all four one-ply scores tie and both sides return the first legal
move, cell 19. -/
theorem c8_alpha_beta_depth_zero_witness :
    alphaBetaGetMoveZero
        (fun b2 => (b2.player_piece_num : Int) - (b2.opponent_piece_num : Int))
        100 Board.default
      = some (bruteForceZero
          (fun b2 => (b2.player_piece_num : Int) - (b2.opponent_piece_num : Int))
          100 Board.default) ∧
    bruteForceZero
        (fun b2 => (b2.player_piece_num : Int) - (b2.opponent_piece_num : Int))
        100 Board.default = some 19 :=
  ⟨c8_alpha_beta_depth_zero _ 100 Board.default (by decide) (by decide) (Or.inl rfl)
      (by decide) (by decide),
    by decide⟩

end RustReversi
